import Mathlib

/-!
# StoryFill — verification of the story renderer and prompt validator

Shallow embedding of the StoryFill frontend library code:

* `renderStory` (web/src/lib/story-renderer, the 3-argument variant taking the
  template story text, the slot list and the submitted prompt values),
* the template catalogue (`TEMPLATE_DEFINITIONS`, `getTemplateDefinition`),
* the prompt validator (`getPromptIssue`, `promptLimits`, `normalizePrompt`,
  `moderationBlockReason` from web/src/lib/prompt-validation),
* a model of the room state machine built from the design document (the
  orchestration server itself is not part of these sources).

Strings are embedded as `List Char`; JavaScript string methods used by the
source (`trim`, `replaceAll`, `startsWith`, `endsWith`, `toLowerCase`) are
given explicit executable definitions on `List Char`.  Functions that scan a
string while skipping over a matched pattern are written with an explicit
fuel argument (initialised with the string length, which always suffices) so
that every definition is structurally recursive and computable by `decide`.
-/

namespace StoryFill

/-- Character-list strings: the embedding of JavaScript strings. -/
abbrev Str := List Char

/-- Shorthand turning a Lean string literal into its character list. -/
def cs (s : String) : Str := s.toList

/-- JavaScript whitespace (the `\s` class, also used by `String.prototype.trim`):
WhiteSpace ∪ LineTerminator code points. -/
def isJsSpace (c : Char) : Bool :=
  c.toNat = 32 || (9 ≤ c.toNat && c.toNat ≤ 13) ||
  c.toNat = 0xa0 || c.toNat = 0x1680 ||
  (0x2000 ≤ c.toNat && c.toNat ≤ 0x200a) ||
  c.toNat = 0x2028 || c.toNat = 0x2029 || c.toNat = 0x202f ||
  c.toNat = 0x205f || c.toNat = 0x3000 || c.toNat = 0xfeff

/-- JS `String.prototype.trim`: drop leading and trailing whitespace. -/
def jsTrim (s : Str) : Str :=
  ((s.dropWhile isJsSpace).reverse.dropWhile isJsSpace).reverse

/-- JS `String.prototype.toLowerCase`, on the ASCII and Latin-1 letters that
can occur here (the full Unicode mapping agrees with this on those ranges). -/
def jsToLower (c : Char) : Char :=
  if 65 ≤ c.toNat ∧ c.toNat ≤ 90 then Char.ofNat (c.toNat + 32)
  else if 0xc0 ≤ c.toNat ∧ c.toNat ≤ 0xde ∧ c.toNat ≠ 0xd7 then Char.ofNat (c.toNat + 32)
  else c

/-- The apostrophe character (code 39), written by code point. -/
def apostrophe : Char := Char.ofNat 39

/-- The backquote character (code 96), written by code point. -/
def backquote : Char := Char.ofNat 96

/-- ECMA-262 `GetSubstitution` for a string replacement with no capture
groups, as performed by `String.prototype.replaceAll` with a string pattern:
`$$` yields `$`, `$&` the matched search string, `$` + backquote the part of
the subject before the match, `$` + apostrophe the part after it; any other
`$` (including `$1`-style, as there are no captures, and `$<`) is literal.
`matched` is the matched search string, `str` the whole subject and
`position` the match index (slicing happens only at match boundaries, so
counting characters agrees with JS code-unit indexing). -/
def getSubstitution (matched str : Str) (position : Nat) : Str → Str
  | [] => []
  | [c] => if c = '$' then ['$'] else [c]
  | c :: d :: rest' =>
    if c = '$' then
      if d = '$' then '$' :: getSubstitution matched str position rest'
      else if d = '&' then matched ++ getSubstitution matched str position rest'
      else if d = backquote then
        str.take position ++ getSubstitution matched str position rest'
      else if d = apostrophe then
        str.drop (position + matched.length) ++ getSubstitution matched str position rest'
      else '$' :: getSubstitution matched str position (d :: rest')
    else c :: getSubstitution matched str position (d :: rest')

/-- Scanner for JS `String.prototype.replaceAll` with a plain-string pattern:
at each position of the subject, either the pattern matches — emit the
`GetSubstitution` expansion of the replacement for this match and skip the
match — or the head character is copied.  `str` is the whole original
subject and `pos` the current index in it (both feed `GetSubstitution`);
`fuel` bounds the recursion; the callers pass the string length, which
suffices because each step consumes at least one character. -/
def replaceAllGo (pat rep str : Str) : Nat → Nat → Str → Str
  | _, _, [] => []
  | 0, _, s => s
  | fuel + 1, pos, c :: rest =>
    if pat ≠ [] ∧ pat.isPrefixOf (c :: rest) then
      getSubstitution pat str pos rep ++
        replaceAllGo pat rep str fuel (pos + pat.length) (List.drop pat.length (c :: rest))
    else
      c :: replaceAllGo pat rep str fuel (pos + 1) rest

/-- JS `s.replaceAll(pat, rep)` (all non-overlapping occurrences, left to
right, each replacement passed through `GetSubstitution`).  The patterns
built by the renderer are `{` ++ id ++ `}` and hence never empty; on an
empty pattern this scanner returns `s` unchanged. -/
def replaceAll (pat rep s : Str) : Str := replaceAllGo pat rep s s.length 0 s

/-- The scan of `replaceAll` resumed at index `pos` of the subject `str`,
with `s` the remaining suffix. -/
def replaceAllFrom (pat rep str : Str) (pos : Nat) (s : Str) : Str :=
  replaceAllGo pat rep str s.length pos s

/-- Companion scanner splitting a string at every pattern occurrence; the
chunks it returns are exactly the fragments `replaceAll` copies verbatim. -/
def splitAllGo (pat : Str) : Nat → Str → List Str
  | _, [] => [[]]
  | 0, s => [s]
  | fuel + 1, c :: rest =>
    if pat ≠ [] ∧ pat.isPrefixOf (c :: rest) then
      [] :: splitAllGo pat fuel (List.drop pat.length (c :: rest))
    else
      match splitAllGo pat fuel rest with
      | [] => [[c]]
      | chunk :: chunks => (c :: chunk) :: chunks

/-- Split `s` at every occurrence of `pat`. -/
def splitAll (pat s : Str) : List Str := splitAllGo pat s.length s

/-- Companion scanner listing the indices of the matches, in order. -/
def matchPositionsGo (pat : Str) : Nat → Nat → Str → List Nat
  | _, _, [] => []
  | 0, _, _ => []
  | fuel + 1, pos, c :: rest =>
    if pat ≠ [] ∧ pat.isPrefixOf (c :: rest) then
      pos :: matchPositionsGo pat fuel (pos + pat.length) (List.drop pat.length (c :: rest))
    else
      matchPositionsGo pat fuel (pos + 1) rest

/-- The match indices found from index `pos` with remaining suffix `s`. -/
def matchPositionsFrom (pat : Str) (pos : Nat) (s : Str) : List Nat :=
  matchPositionsGo pat s.length pos s

/-- The indices of all pattern occurrences `replaceAll` replaces. -/
def matchPositions (pat s : Str) : List Nat := matchPositionsFrom pat 0 s

theorem replaceAllGo_fuel (pat rep str : Str) :
    ∀ (f₁ : Nat) (s : Str) (f₂ pos : Nat), s.length ≤ f₁ → s.length ≤ f₂ →
      replaceAllGo pat rep str f₁ pos s = replaceAllGo pat rep str f₂ pos s := by
  intro f₁
  induction f₁ with
  | zero =>
    intro s f₂ pos h₁ _
    have : s = [] := List.length_eq_zero.mp (Nat.le_zero.mp h₁)
    subst this
    cases f₂ <;> rfl
  | succ f ih =>
    intro s f₂ pos h₁ h₂
    cases s with
    | nil => cases f₂ <;> rfl
    | cons c rest =>
      cases f₂ with
      | zero => simp at h₂
      | succ g =>
        simp only [replaceAllGo]
        by_cases hcond : pat ≠ [] ∧ pat.isPrefixOf (c :: rest)
        · simp only [if_pos hcond]
          have hpat : 1 ≤ pat.length := by
            cases hp : pat with
            | nil => exact absurd hp hcond.1
            | cons a l => simp
          have hlen : (List.drop pat.length (c :: rest)).length ≤ f := by
            simp only [List.length_drop, List.length_cons] at *
            omega
          have hlen' : (List.drop pat.length (c :: rest)).length ≤ g := by
            simp only [List.length_drop, List.length_cons] at *
            omega
          rw [ih _ g (pos + pat.length) hlen hlen']
        · simp only [if_neg hcond]
          rw [ih rest g (pos + 1) (by simp at h₁; omega) (by simp at h₂; omega)]

theorem splitAllGo_fuel (pat : Str) :
    ∀ (f₁ : Nat) (s : Str) (f₂ : Nat), s.length ≤ f₁ → s.length ≤ f₂ →
      splitAllGo pat f₁ s = splitAllGo pat f₂ s := by
  intro f₁
  induction f₁ with
  | zero =>
    intro s f₂ h₁ _
    have : s = [] := List.length_eq_zero.mp (Nat.le_zero.mp h₁)
    subst this
    cases f₂ <;> rfl
  | succ f ih =>
    intro s f₂ h₁ h₂
    cases s with
    | nil => cases f₂ <;> rfl
    | cons c rest =>
      cases f₂ with
      | zero => simp at h₂
      | succ g =>
        simp only [splitAllGo]
        by_cases hcond : pat ≠ [] ∧ pat.isPrefixOf (c :: rest)
        · simp only [if_pos hcond]
          have hpat : 1 ≤ pat.length := by
            cases hp : pat with
            | nil => exact absurd hp hcond.1
            | cons a l => simp
          rw [ih _ g (by simp only [List.length_drop, List.length_cons] at *; omega)
            (by simp only [List.length_drop, List.length_cons] at *; omega)]
        · simp only [if_neg hcond]
          rw [ih rest g (by simp at h₁; omega) (by simp at h₂; omega)]

theorem matchPositionsGo_fuel (pat : Str) :
    ∀ (f₁ : Nat) (s : Str) (f₂ pos : Nat), s.length ≤ f₁ → s.length ≤ f₂ →
      matchPositionsGo pat f₁ pos s = matchPositionsGo pat f₂ pos s := by
  intro f₁
  induction f₁ with
  | zero =>
    intro s f₂ pos h₁ _
    have : s = [] := List.length_eq_zero.mp (Nat.le_zero.mp h₁)
    subst this
    cases f₂ <;> rfl
  | succ f ih =>
    intro s f₂ pos h₁ h₂
    cases s with
    | nil => cases f₂ <;> rfl
    | cons c rest =>
      cases f₂ with
      | zero => simp at h₂
      | succ g =>
        simp only [matchPositionsGo]
        by_cases hcond : pat ≠ [] ∧ pat.isPrefixOf (c :: rest)
        · simp only [if_pos hcond]
          have hpat : 1 ≤ pat.length := by
            cases hp : pat with
            | nil => exact absurd hp hcond.1
            | cons a l => simp
          rw [ih _ g (pos + pat.length)
            (by simp only [List.length_drop, List.length_cons] at *; omega)
            (by simp only [List.length_drop, List.length_cons] at *; omega)]
        · simp only [if_neg hcond]
          rw [ih rest g (pos + 1) (by simp at h₁; omega) (by simp at h₂; omega)]

theorem replaceAll_eq_from (pat rep s : Str) :
    replaceAll pat rep s = replaceAllFrom pat rep s 0 s := rfl

theorem replaceAllFrom_nil (pat rep str : Str) (pos : Nat) :
    replaceAllFrom pat rep str pos [] = [] := rfl

theorem replaceAllFrom_cons_pos {pat : Str} (rep str : Str) (pos : Nat) {c : Char}
    {rest : Str} (h : pat ≠ []) (hp : pat.isPrefixOf (c :: rest)) :
    replaceAllFrom pat rep str pos (c :: rest) =
      getSubstitution pat str pos rep ++
        replaceAllFrom pat rep str (pos + pat.length) (List.drop pat.length (c :: rest)) := by
  have hpat : 1 ≤ pat.length := by
    cases hq : pat with
    | nil => exact absurd hq h
    | cons a l => simp
  simp only [replaceAllFrom, List.length_cons, replaceAllGo, if_pos (And.intro h hp)]
  rw [replaceAllGo_fuel pat rep str rest.length _ _ (pos + pat.length)
    (by simp only [List.length_drop, List.length_cons]; omega) (le_refl _)]

theorem replaceAllFrom_cons_neg {pat : Str} (rep str : Str) (pos : Nat) {c : Char}
    {rest : Str} (h : ¬(pat ≠ [] ∧ pat.isPrefixOf (c :: rest))) :
    replaceAllFrom pat rep str pos (c :: rest) =
      c :: replaceAllFrom pat rep str (pos + 1) rest := by
  simp only [replaceAllFrom, List.length_cons, replaceAllGo, if_neg h]

theorem splitAll_nil (pat : Str) : splitAll pat [] = [[]] := rfl

theorem splitAll_cons_pos {pat : Str} {c : Char} {rest : Str}
    (h : pat ≠ []) (hp : pat.isPrefixOf (c :: rest)) :
    splitAll pat (c :: rest) =
      [] :: splitAll pat (List.drop pat.length (c :: rest)) := by
  have hpat : 1 ≤ pat.length := by
    cases hq : pat with
    | nil => exact absurd hq h
    | cons a l => simp
  simp only [splitAll, List.length_cons, splitAllGo, if_pos (And.intro h hp)]
  rw [splitAllGo_fuel pat rest.length _ _
    (by simp only [List.length_drop, List.length_cons]; omega) (le_refl _)]

theorem splitAll_cons_neg {pat : Str} {c : Char} {rest : Str}
    (h : ¬(pat ≠ [] ∧ pat.isPrefixOf (c :: rest))) :
    splitAll pat (c :: rest) =
      match splitAll pat rest with
      | [] => [[c]]
      | chunk :: chunks => (c :: chunk) :: chunks := by
  simp only [splitAll, List.length_cons, splitAllGo, if_neg h]

theorem matchPositionsFrom_nil (pat : Str) (pos : Nat) :
    matchPositionsFrom pat pos [] = [] := rfl

theorem matchPositionsFrom_cons_pos {pat : Str} (pos : Nat) {c : Char} {rest : Str}
    (h : pat ≠ []) (hp : pat.isPrefixOf (c :: rest)) :
    matchPositionsFrom pat pos (c :: rest) =
      pos :: matchPositionsFrom pat (pos + pat.length) (List.drop pat.length (c :: rest)) := by
  have hpat : 1 ≤ pat.length := by
    cases hq : pat with
    | nil => exact absurd hq h
    | cons a l => simp
  simp only [matchPositionsFrom, List.length_cons, matchPositionsGo, if_pos (And.intro h hp)]
  rw [matchPositionsGo_fuel pat rest.length _ _ (pos + pat.length)
    (by simp only [List.length_drop, List.length_cons]; omega) (le_refl _)]

theorem matchPositionsFrom_cons_neg {pat : Str} (pos : Nat) {c : Char} {rest : Str}
    (h : ¬(pat ≠ [] ∧ pat.isPrefixOf (c :: rest))) :
    matchPositionsFrom pat pos (c :: rest) = matchPositionsFrom pat (pos + 1) rest := by
  simp only [matchPositionsFrom, List.length_cons, matchPositionsGo, if_neg h]

/-- A replacement without `$` is inserted literally by `GetSubstitution`. -/
theorem getSubstitution_literal (matched str : Str) (pos : Nat) :
    ∀ rep : Str, (∀ c ∈ rep, c ≠ '$') → getSubstitution matched str pos rep = rep := by
  intro rep
  induction rep with
  | nil => intro _; rfl
  | cons c rest ih =>
    intro h
    have hc : c ≠ '$' := h c (List.mem_cons_self c rest)
    cases rest with
    | nil => simp only [getSubstitution, if_neg hc]
    | cons d rest' =>
      simp only [getSubstitution, if_neg hc]
      rw [ih fun x hx => h x (List.mem_cons_of_mem c hx)]

/-! ## Data model (web/src/lib/template-definitions) -/

/-- `TemplateSlot = { id, label, type }`. -/
structure TemplateSlot where
  id : Str
  label : Str
  type : Str
deriving DecidableEq

/-- `TemplateDefinition = { id, title, genre, contentRating, slots, story }`. -/
structure TemplateDefinition where
  id : Str
  title : Str
  genre : Str
  contentRating : Str
  slots : List TemplateSlot
  story : Str
deriving DecidableEq

/-- The shared `BASE_SLOTS` list used by every catalogue template. -/
def BASE_SLOTS : List TemplateSlot :=
  [ ⟨cs "adjective", cs "An adjective", cs "adjective"⟩,
    ⟨cs "name", cs "A famous name", cs "name"⟩,
    ⟨cs "verb", cs "A verb ending in -ing", cs "verb"⟩,
    ⟨cs "place", cs "A place", cs "place"⟩,
    ⟨cs "sound", cs "A silly sound", cs "sound"⟩,
    ⟨cs "noun", cs "A plural noun", cs "noun"⟩ ]

/-- The `TEMPLATE_DEFINITIONS` record, embedded as an association list in
object-literal insertion order (the order `Object.values` enumerates). -/
def TEMPLATE_DEFINITIONS : List (Str × TemplateDefinition) :=
  [ (cs "t-forest-mishap",
     ⟨cs "t-forest-mishap", cs "The Forest Mishap", cs "Adventure", cs "family", BASE_SLOTS,
      cs "On a {adjective} morning, {name} was {verb} through the {place} when a {sound} startled a {noun}. Everyone laughed, then asked for an encore."⟩),
    (cs "t-space-diner",
     ⟨cs "t-space-diner", cs "Midnight at the Space Diner", cs "Sci-Fi", cs "family", BASE_SLOTS,
      cs "At the {place} space diner, {name} kept {verb} until a {adjective} {noun} burst in with a {sound}. The crowd cheered and ordered dessert."⟩),
    (cs "t-castle-caper",
     ⟨cs "t-castle-caper", cs "The Castle Caper", cs "Fantasy", cs "family", BASE_SLOTS,
      cs "Inside the {adjective} castle, {name} was caught {verb} past the {place} when a {sound} spooked the {noun}. A royal encore was demanded."⟩),
    (cs "t-museum-heist",
     ⟨cs "t-museum-heist", cs "The Curious Museum Heist", cs "Mystery", cs "family", BASE_SLOTS,
      cs "During a {adjective} tour of the {place}, {name} was {verb} when a {sound} echoed over the {noun}. The guide insisted on an encore."⟩),
    (cs "t-wild-west",
     ⟨cs "t-wild-west", cs "Sundown in the Wild West", cs "Western", cs "family", BASE_SLOTS,
      cs "At the {place} saloon, {name} was {verb} when a {sound} scared a {adjective} herd of {noun}. The town roared for a repeat."⟩),
    (cs "t-ocean-odyssey",
     ⟨cs "t-ocean-odyssey", cs "The Ocean Odyssey", cs "Adventure", cs "family", BASE_SLOTS,
      cs "On the {adjective} deck of the {place}, {name} was {verb} when a {sound} startled the {noun}. The crew begged for an encore."⟩) ]

/-- First-match association-list lookup (a JS object / `Map.prototype.get`). -/
def lookupVal {α : Type} : List (Str × α) → Str → Option α
  | [], _ => none
  | (k, v) :: rest, key => if k = key then some v else lookupVal rest key

/-- The guard `templateId && TEMPLATE_DEFINITIONS[templateId]` restricted to
own properties: `none` when `templateId` is null/undefined or the empty
string (falsy) or not an own catalogue key.  JS bracket lookup additionally
finds inherited `Object.prototype` members; `getTemplateDefinitionJs` below
models that full behaviour. -/
def resolveTemplateId (templateId : Option Str) : Option TemplateDefinition :=
  templateId.bind fun id => if id = [] then none else lookupVal TEMPLATE_DEFINITIONS id

/-- `getTemplateDefinition(templateId)` restricted to own-property lookup:
return the catalogue entry when `templateId` is truthy and an own catalogue
key, otherwise fall back to `Object.values(TEMPLATE_DEFINITIONS)[0]`.  The
catalogue is non-empty, so the `headD` default is unreachable (in JS an
empty catalogue would yield `undefined` here).  This agrees with the
runtime whenever the id is not an inherited `Object.prototype` member name;
`getTemplateDefinitionJs` models the unrestricted behaviour. -/
def getTemplateDefinition (templateId : Option Str) : TemplateDefinition :=
  match resolveTemplateId templateId with
  | some d => d
  | none => List.headD (TEMPLATE_DEFINITIONS.map Prod.snd) ⟨[], [], [], [], [], []⟩

/-- The member names of `Object.prototype` (every one bound to a truthy
value), which JS bracket lookup on a plain object literal finds when no own
property matches. -/
def OBJECT_PROTOTYPE_KEYS : List Str :=
  [ cs "constructor", cs "hasOwnProperty", cs "isPrototypeOf", cs "propertyIsEnumerable",
    cs "toLocaleString", cs "toString", cs "valueOf", cs "__proto__",
    cs "__defineGetter__", cs "__defineSetter__", cs "__lookupGetter__", cs "__lookupSetter__" ]

/-- A truthy runtime value of the JS expression
`TEMPLATE_DEFINITIONS[templateId]`: an own catalogue entry, or an inherited
member of `Object.prototype` (the TypeScript `Record` annotation does not
exist at runtime). -/
inductive JsPropertyValue
  | templateDef (d : TemplateDefinition)
  | protoMember (name : Str)
deriving DecidableEq

/-- JS property lookup on the catalogue object literal: an own key shadows
the prototype; otherwise the inherited `Object.prototype` member is found;
otherwise undefined (`none`). -/
def jsRecordLookup (id : Str) : Option JsPropertyValue :=
  match lookupVal TEMPLATE_DEFINITIONS id with
  | some d => some (JsPropertyValue.templateDef d)
  | none =>
    if id ∈ OBJECT_PROTOTYPE_KEYS then some (JsPropertyValue.protoMember id) else none

/-- `getTemplateDefinition(templateId)` with full JS property semantics: the
guard `templateId && TEMPLATE_DEFINITIONS[templateId]` also passes for
truthy inherited prototype members, which are then returned unchanged. -/
def getTemplateDefinitionJs (templateId : Option Str) : JsPropertyValue :=
  match templateId with
  | none =>
    JsPropertyValue.templateDef
      (List.headD (TEMPLATE_DEFINITIONS.map Prod.snd) ⟨[], [], [], [], [], []⟩)
  | some id =>
    if id = [] then
      JsPropertyValue.templateDef
        (List.headD (TEMPLATE_DEFINITIONS.map Prod.snd) ⟨[], [], [], [], [], []⟩)
    else
      match jsRecordLookup id with
      | some v => v
      | none =>
        JsPropertyValue.templateDef
          (List.headD (TEMPLATE_DEFINITIONS.map Prod.snd) ⟨[], [], [], [], [], []⟩)

/-! ## Story renderer (web/src/lib/story-renderer, the 3-argument variant) -/

/-- `PromptValue = { slotId?, type?, value? }`. -/
structure PromptValue where
  slotId : Option Str
  type : Option Str
  value : Option Str
deriving DecidableEq

/-- `prompt.slotId ?? prompt.type` (`??` falls through only on
null/undefined, so an empty `slotId` string is returned as-is). -/
def effectiveKey (p : PromptValue) : Option Str :=
  match p.slotId with
  | some k => some k
  | none => p.type

/-- One iteration of the `for (const prompt of prompts)` loop: skip falsy
values and falsy keys, and only insert a key on first sight
(`if (!values.has(key)) values.set(key, prompt.value.trim())`). -/
def buildStep (values : List (Str × Str)) (p : PromptValue) : List (Str × Str) :=
  match p.value with
  | none => values
  | some v =>
    if v = [] then values
    else
      match effectiveKey p with
      | none => values
      | some k =>
        if k = [] then values
        else if (lookupVal values k).isSome then values
        else values ++ [(k, jsTrim v)]

/-- The whole loop, threading the `values` map. -/
def buildValuesFrom (values : List (Str × Str)) : List PromptValue → List (Str × Str)
  | [] => values
  | p :: ps => buildValuesFrom (buildStep values p) ps

/-- The `values` map the renderer builds from the submitted prompts. -/
def buildValues (prompts : List PromptValue) : List (Str × Str) :=
  buildValuesFrom [] prompts

/-- The placeholder pattern `` `{${slot.id}}` ``. -/
def placeholderOf (id : Str) : Str := '{' :: id ++ ['}']

/-- The loop body of `renderStory`:
`raw = values.get(slot.id) ?? "something"` and the sound-quoting rule
`if (slot.type === "sound" && raw && !(raw.startsWith('"') && raw.endsWith('"')))`. -/
def substitutedValue (values : List (Str × Str)) (slot : TemplateSlot) : Str :=
  let raw := (lookupVal values slot.id).getD (cs "something")
  if slot.type = cs "sound" ∧ raw ≠ [] ∧
      ¬(raw.head? = some '"' ∧ raw.getLast? = some '"') then
    '"' :: raw ++ ['"']
  else raw

/-- The `for (const slot of slots)` loop folding `replaceAll` over the story. -/
def renderWith (values : List (Str × Str)) (story : Str) (slots : List TemplateSlot) : Str :=
  slots.foldl
    (fun rendered slot =>
      replaceAll (placeholderOf slot.id) (substitutedValue values slot) rendered)
    story

/-- `renderStory(story, slots, prompts)` from web/src/lib/story-renderer. -/
def renderStory (story : Str) (slots : List TemplateSlot) (prompts : List PromptValue) : Str :=
  renderWith (buildValues prompts) story slots

/-! ## Characterisation of `replaceAll`: every occurrence is replaced -/

/-- Join chunks with a separator (the inverse of `splitAll`). -/
def joinWith (sep : Str) : List Str → Str
  | [] => []
  | [chunk] => chunk
  | chunk :: next :: rest => chunk ++ sep ++ joinWith sep (next :: rest)

/-- A string containing neither brace character. -/
def braceFreeP (s : Str) : Prop := ∀ c ∈ s, c ≠ '{' ∧ c ≠ '}'

instance (s : Str) : Decidable (braceFreeP s) := by
  unfold braceFreeP
  infer_instance

theorem splitAll_ne_nil (pat : Str) :
    ∀ (n : Nat) (s : Str), s.length ≤ n → splitAll pat s ≠ [] := by
  intro n
  induction n with
  | zero =>
    intro s hs
    have : s = [] := List.length_eq_zero.mp (Nat.le_zero.mp hs)
    subst this
    simp [splitAll_nil]
  | succ n ih =>
    intro s hs
    cases s with
    | nil => simp [splitAll_nil]
    | cons c rest =>
      by_cases hcond : pat ≠ [] ∧ pat.isPrefixOf (c :: rest)
      · rw [splitAll_cons_pos hcond.1 hcond.2]
        simp
      · rw [splitAll_cons_neg hcond]
        rcases hsp : splitAll pat rest with _ | ⟨chunk, chunks⟩ <;> simp

theorem joinWith_splitAll (pat : Str) :
    ∀ (n : Nat) (s : Str), s.length ≤ n → joinWith pat (splitAll pat s) = s := by
  intro n
  induction n with
  | zero =>
    intro s hs
    have : s = [] := List.length_eq_zero.mp (Nat.le_zero.mp hs)
    subst this
    simp [splitAll_nil, joinWith]
  | succ n ih =>
    intro s hs
    cases s with
    | nil => simp [splitAll_nil, joinWith]
    | cons c rest =>
      by_cases hcond : pat ≠ [] ∧ pat.isPrefixOf (c :: rest)
      · rw [splitAll_cons_pos hcond.1 hcond.2]
        obtain ⟨t, ht⟩ := List.isPrefixOf_iff_prefix.mp hcond.2
        have hpat1 : 1 ≤ pat.length := by
          cases hq : pat with
          | nil => exact absurd hq hcond.1
          | cons a l => simp
        have hdrop : List.drop pat.length (c :: rest) = t := by
          rw [← ht, List.drop_left]
        have hlen : t.length ≤ n := by
          have := congrArg List.length ht
          simp only [List.length_append, List.length_cons] at this
          simp only [List.length_cons] at hs
          omega
        rcases hsp : splitAll pat t with _ | ⟨chunk, chunks⟩
        · exact absurd hsp (splitAll_ne_nil pat n t hlen)
        · have hj := ih t hlen
          rw [hsp] at hj
          rw [hdrop, hsp]
          show [] ++ pat ++ joinWith pat (chunk :: chunks) = c :: rest
          rw [List.nil_append, hj, ht]
      · rw [splitAll_cons_neg hcond]
        have hlen : rest.length ≤ n := by simp at hs; omega
        rcases hsp : splitAll pat rest with _ | ⟨chunk, chunks⟩
        · exact absurd hsp (splitAll_ne_nil pat n rest hlen)
        · have hj := ih rest hlen
          rw [hsp] at hj
          cases chunks with
          | nil =>
            simp only [joinWith] at hj ⊢
            rw [hj]
          | cons d ds =>
            simp only [joinWith] at hj ⊢
            rw [List.cons_append, List.cons_append, hj]

/-- Interleave occurrence-free chunks with the per-match substitution
texts: `interleave [c0, c1, ..., cn] [s1, ..., sn] = c0 ++ s1 ++ c1 ++ ...`. -/
def interleave : List Str → List Str → Str
  | [], _ => []
  | [chunk], _ => chunk
  | chunk :: next :: chunks, [] => chunk ++ interleave (next :: chunks) []
  | chunk :: next :: chunks, sub :: subs => chunk ++ sub ++ interleave (next :: chunks) subs

/-- `replaceAll` (from any resume point) equals the occurrence-free chunks of
the subject interleaved with the `GetSubstitution` expansion of the
replacement at each match position: every occurrence is located and
replaced. -/
theorem replaceAllFrom_eq_interleave (pat rep str : Str) :
    ∀ (n : Nat) (s : Str) (pos : Nat), s.length ≤ n →
      replaceAllFrom pat rep str pos s =
        interleave (splitAll pat s)
          ((matchPositionsFrom pat pos s).map fun p => getSubstitution pat str p rep) := by
  intro n
  induction n with
  | zero =>
    intro s pos hs
    have : s = [] := List.length_eq_zero.mp (Nat.le_zero.mp hs)
    subst this
    rfl
  | succ n ih =>
    intro s pos hs
    cases s with
    | nil => rfl
    | cons c rest =>
      by_cases hcond : pat ≠ [] ∧ pat.isPrefixOf (c :: rest)
      · rw [splitAll_cons_pos hcond.1 hcond.2, replaceAllFrom_cons_pos rep str pos hcond.1 hcond.2,
          matchPositionsFrom_cons_pos pos hcond.1 hcond.2]
        have hpat1 : 1 ≤ pat.length := by
          cases hq : pat with
          | nil => exact absurd hq hcond.1
          | cons a l => simp
        have hlen : (List.drop pat.length (c :: rest)).length ≤ n := by
          simp only [List.length_drop, List.length_cons]
          simp only [List.length_cons] at hs
          omega
        rcases hsp : splitAll pat (List.drop pat.length (c :: rest)) with _ | ⟨chunk, chunks⟩
        · exact absurd hsp (splitAll_ne_nil pat n _ hlen)
        · have hr := ih _ (pos + pat.length) hlen
          rw [hsp] at hr
          rw [hr, List.map_cons]
          show getSubstitution pat str pos rep ++ interleave (chunk :: chunks) _
            = [] ++ getSubstitution pat str pos rep ++ interleave (chunk :: chunks) _
          simp
      · rw [splitAll_cons_neg hcond, replaceAllFrom_cons_neg rep str pos hcond,
          matchPositionsFrom_cons_neg pos hcond]
        have hlen : rest.length ≤ n := by simp at hs; omega
        rcases hsp : splitAll pat rest with _ | ⟨chunk, chunks⟩
        · exact absurd hsp (splitAll_ne_nil pat n rest hlen)
        · have hr := ih rest (pos + 1) hlen
          rw [hsp] at hr
          rw [hr]
          cases chunks with
          | nil =>
            rcases (matchPositionsFrom pat (pos + 1) rest).map
                (fun p => getSubstitution pat str p rep) with - | ⟨s0, ss⟩
            · rfl
            · rfl
          | cons d ds =>
            rcases (matchPositionsFrom pat (pos + 1) rest).map
                (fun p => getSubstitution pat str p rep) with - | ⟨s0, ss⟩
            · show c :: (chunk ++ interleave (d :: ds) []) = (c :: chunk) ++ interleave (d :: ds) []
              simp
            · show c :: (chunk ++ s0 ++ interleave (d :: ds) ss)
                = (c :: chunk) ++ s0 ++ interleave (d :: ds) ss
              simp

theorem splitAll_chunks_not_infix (pat : Str) (hpat : pat ≠ []) :
    ∀ (n : Nat) (s : Str), s.length ≤ n →
      ∀ chunk ∈ splitAll pat s, ¬ pat <:+: chunk := by
  intro n
  induction n with
  | zero =>
    intro s hs chunk hm hinf
    have : s = [] := List.length_eq_zero.mp (Nat.le_zero.mp hs)
    subst this
    rw [splitAll_nil] at hm
    simp at hm
    subst hm
    exact hpat (List.eq_nil_of_sublist_nil hinf.sublist)
  | succ n ih =>
    intro s hs chunk hm hinf
    cases s with
    | nil =>
      rw [splitAll_nil] at hm
      simp at hm
      subst hm
      exact hpat (List.eq_nil_of_sublist_nil hinf.sublist)
    | cons c rest =>
      by_cases hcond : pat ≠ [] ∧ pat.isPrefixOf (c :: rest)
      · rw [splitAll_cons_pos hcond.1 hcond.2] at hm
        have hpat1 : 1 ≤ pat.length := by
          cases hq : pat with
          | nil => exact absurd hq hpat
          | cons a l => simp
        have hlen : (List.drop pat.length (c :: rest)).length ≤ n := by
          simp only [List.length_drop, List.length_cons]
          simp only [List.length_cons] at hs
          omega
        rcases List.mem_cons.mp hm with hm' | hm'
        · subst hm'
          exact hpat (List.eq_nil_of_sublist_nil hinf.sublist)
        · exact ih _ hlen chunk hm' hinf
      · rw [splitAll_cons_neg hcond] at hm
        have hlen : rest.length ≤ n := by simp at hs; omega
        rcases hsp : splitAll pat rest with _ | ⟨ch, chs⟩
        · exact absurd hsp (splitAll_ne_nil pat n rest hlen)
        · rw [hsp] at hm
          simp only [List.mem_cons] at hm
          rcases hm with hm | hm
          · -- chunk = c :: ch, the head chunk extended with the copied character
            subst hm
            have hch_pre : ch <+: rest := by
              have hj := joinWith_splitAll pat n rest hlen
              rw [hsp] at hj
              cases chs with
              | nil =>
                simp only [joinWith] at hj
                exact hj ▸ List.prefix_refl ch
              | cons d ds =>
                simp only [joinWith] at hj
                exact ⟨pat ++ joinWith pat (d :: ds), by rw [← hj]; simp⟩
            rcases List.infix_cons_iff.mp hinf with hpre | hinf'
            · -- pat a prefix of c :: ch would contradict the failed match
              have : pat <+: c :: rest := hpre.trans (List.cons_prefix_cons.mpr ⟨rfl, hch_pre⟩)
              exact hcond ⟨hpat, List.isPrefixOf_iff_prefix.mpr this⟩
            · exact ih rest hlen ch (hsp ▸ List.mem_cons_self ch chs) hinf'
          · exact ih rest hlen chunk (hsp ▸ List.mem_cons_of_mem ch hm) hinf

/-! ## Unknown placeholders are left literal -/

theorem replaceAllFrom_copy_of_no_open (t rep str : Str) :
    ∀ (l : Str) (pos : Nat) (v : Str), (∀ d ∈ l, d ≠ '{') →
      replaceAllFrom ('{' :: t) rep str pos (l ++ v)
        = l ++ replaceAllFrom ('{' :: t) rep str (pos + l.length) v := by
  intro l
  induction l with
  | nil => intro pos v _; simp
  | cons d l' ihl =>
    intro pos v hl
    have hd : d ≠ '{' := hl d (List.mem_cons_self d l')
    have hcond : ¬(('{' :: t) ≠ [] ∧ ('{' :: t).isPrefixOf (d :: (l' ++ v))) := by
      rintro ⟨-, hp⟩
      have := List.cons_prefix_cons.mp (List.isPrefixOf_iff_prefix.mp hp)
      exact hd this.1.symm
    rw [List.cons_append, replaceAllFrom_cons_neg rep str pos hcond,
      ihl (pos + 1) v fun e he => hl e (List.mem_cons_of_mem d he)]
    have harith : pos + 1 + l'.length = pos + (d :: l').length := by
      simp only [List.length_cons]
      omega
    rw [harith]
    rfl

/-- If `i ++ [close]` is a prefix of `x ++ close :: v` and neither `i` nor `x`
contains `close`, the two interiors agree. -/
theorem placeholder_interior_eq {i x v : Str} {close : Char}
    (hi : close ∉ i) (hx : close ∉ x)
    (h : (i ++ [close]) <+: (x ++ close :: v)) : i = x := by
  have hi' : i <+: x ++ close :: v := (List.prefix_append i [close]).trans h
  have hx' : x <+: x ++ close :: v := List.prefix_append x (close :: v)
  rcases List.prefix_or_prefix_of_prefix hi' hx' with hp | hp
  · obtain ⟨y, hy⟩ := hp
    obtain ⟨r, hr⟩ := h
    rw [← hy, List.append_assoc, List.append_assoc] at hr
    have := List.append_cancel_left hr
    cases y with
    | nil => rw [← hy]; simp
    | cons b y' =>
      exfalso
      simp only [List.cons_append, List.append_assoc] at this
      have hb : close = b := by
        have := congrArg List.head? this
        simpa using this
      refine hx ?_
      rw [← hy]
      exact List.mem_append_right i (hb ▸ List.mem_cons_self b y')
  · obtain ⟨y, hy⟩ := hp
    obtain ⟨r, hr⟩ := h
    rw [← hy] at hr
    rw [List.append_assoc, List.append_assoc] at hr
    have := List.append_cancel_left hr
    cases y with
    | nil => rw [← hy]; simp
    | cons b y' =>
      exfalso
      simp only [List.cons_append] at this
      have hb : close = b := by
        have := congrArg List.head? this.symm
        simpa using this
      refine hi ?_
      rw [← hy]
      refine List.mem_append_right x ?_
      rw [hb]
      exact List.mem_cons_self b y'

theorem mem_of_braceFreeP {s : Str} (h : braceFreeP s) : '{' ∉ s ∧ '}' ∉ s := by
  constructor
  · intro hm; exact (h _ hm).1 rfl
  · intro hm; exact (h _ hm).2 rfl

/-- A single `replaceAll` step with pattern `{i}` cannot touch an occurrence
of a different placeholder `{x}` (both interiors brace-free). -/
theorem survival_step (i x rep str : Str) (hi : braceFreeP i) (hx : braceFreeP x)
    (hne : x ≠ i) :
    ∀ (n : Nat) (s : Str) (pos : Nat), s.length ≤ n → placeholderOf x <:+: s →
      placeholderOf x <:+: replaceAllFrom (placeholderOf i) rep str pos s := by
  intro n
  induction n with
  | zero =>
    intro s pos hs hocc
    have : s = [] := List.length_eq_zero.mp (Nat.le_zero.mp hs)
    subst this
    obtain ⟨u, v, huv⟩ := hocc
    rcases List.append_eq_nil.mp (List.append_eq_nil.mp huv).1 with ⟨-, hm⟩
    exact absurd hm (by simp [placeholderOf])
  | succ n ih =>
    intro s pos hs hocc
    set pat : Str := placeholderOf i with hpatdef
    have hpat_ne : pat ≠ [] := by simp [hpatdef, placeholderOf]
    have hpat1 : 1 ≤ pat.length := by
      simp [hpatdef, placeholderOf]
    cases s with
    | nil =>
      obtain ⟨u, v, huv⟩ := hocc
      rcases List.append_eq_nil.mp (List.append_eq_nil.mp huv).1 with ⟨-, hm⟩
      exact absurd hm (by simp [placeholderOf])
    | cons c rest =>
      obtain ⟨u, v, huv⟩ := hocc
      by_cases hcond : pat ≠ [] ∧ pat.isPrefixOf (c :: rest)
      · rw [replaceAllFrom_cons_pos rep str pos hcond.1 hcond.2]
        have hp : pat <+: c :: rest := List.isPrefixOf_iff_prefix.mp hcond.2
        by_cases hle : pat.length ≤ u.length
        · -- the occurrence lies beyond the replaced match
          have hdrop : List.drop pat.length (c :: rest) =
              List.drop pat.length u ++ (placeholderOf x ++ v) := by
            rw [← huv, List.append_assoc, List.drop_append_of_le_length hle]
          have hlen : (List.drop pat.length (c :: rest)).length ≤ n := by
            simp only [List.length_drop, List.length_cons]
            simp only [List.length_cons] at hs
            omega
          have hrec := ih _ (pos + pat.length) hlen
            ⟨List.drop pat.length u, v, by rw [hdrop, List.append_assoc]⟩
          obtain ⟨a, b, hab⟩ := hrec
          exact ⟨getSubstitution pat str pos rep ++ a, b, by rw [← hab]; simp [List.append_assoc]⟩
        · -- the occurrence would have to overlap the match: impossible
          exfalso
          push_neg at hle
          have hu_pre : u <+: c :: rest :=
            ⟨placeholderOf x ++ v, by rw [← huv]; simp [List.append_assoc]⟩
          rcases List.prefix_or_prefix_of_prefix hu_pre hp with hup | hpu
          swap
          · exact absurd hpu.length_le (by omega)
          obtain ⟨w, hw⟩ := hup
          have hw_ne : w ≠ [] := by
            rintro rfl
            rw [List.append_nil] at hw
            subst hw
            omega
          obtain ⟨t', ht'⟩ := hp
          have h1 : u ++ (w ++ t') = u ++ (placeholderOf x ++ v) := by
            rw [← List.append_assoc, hw, ht', ← huv, List.append_assoc]
          have htail := List.append_cancel_left h1
          cases w with
          | nil => exact hw_ne rfl
          | cons w0 w1 =>
            have hw0 : w0 = '{' := by
              have := congrArg List.head? htail
              simpa [placeholderOf] using this
            cases u with
            | nil =>
              -- both placeholders start the string: their interiors coincide
              rw [List.nil_append] at hw
              have hw1 : w1 = i ++ ['}'] := by
                have h2 : w0 :: w1 = '{' :: (i ++ ['}']) := by
                  rw [hw, hpatdef]; rfl
                injection h2
              have htl : w1 ++ t' = x ++ '}' :: v := by
                have := congrArg List.tail htail
                simpa [placeholderOf] using this
              rw [hw1] at htl
              exact hne (placeholder_interior_eq (mem_of_braceFreeP hi).2
                (mem_of_braceFreeP hx).2 ⟨t', htl⟩).symm
            | cons a u' =>
              have hiw : u' ++ w0 :: w1 = i ++ ['}'] := by
                have := congrArg List.tail hw
                simpa [hpatdef, placeholderOf] using this
              have hmem : '{' ∈ i ++ ['}'] := by
                rw [← hiw]
                refine List.mem_append_right u' ?_
                rw [hw0]
                exact List.mem_cons_self '{' w1
              rcases List.mem_append.mp hmem with hmi | hmi
              · exact (hi _ hmi).1 rfl
              · simp at hmi
      · rw [replaceAllFrom_cons_neg rep str pos hcond]
        cases u with
        | cons a u' =>
          have ha : a = c := by
            have := congrArg List.head? huv
            simpa using this
          have hrest : u' ++ placeholderOf x ++ v = rest := by
            have := congrArg List.tail huv
            simpa [ha] using this
          have hlen : rest.length ≤ n := by simp at hs; omega
          obtain ⟨p, q, hpq⟩ := ih rest (pos + 1) hlen ⟨u', v, hrest⟩
          exact ⟨c :: p, q, by rw [← hpq]; simp⟩
        | nil =>
          -- the unknown placeholder starts the string; the scanner copies it
          rw [List.nil_append] at huv
          have hc : c = '{' := by
            have := congrArg List.head? huv
            simpa [placeholderOf] using this.symm
          have hrest : rest = (x ++ ['}']) ++ v := by
            have := congrArg List.tail huv
            simpa [placeholderOf] using this.symm
          have hnoopen : ∀ d ∈ x ++ ['}'], d ≠ '{' := by
            intro d hd
            rcases List.mem_append.mp hd with hd | hd
            · exact (hx _ hd).1
            · simp at hd
              subst hd
              decide
          rw [hrest, hpatdef]
          show placeholderOf x <:+:
            c :: replaceAllFrom (placeholderOf i) rep str (pos + 1) ((x ++ ['}']) ++ v)
          rw [show placeholderOf i = '{' :: (i ++ ['}']) from rfl,
            replaceAllFrom_copy_of_no_open (i ++ ['}']) rep str (x ++ ['}']) (pos + 1) v hnoopen,
            hc]
          exact ⟨[],
            replaceAllFrom ('{' :: (i ++ ['}'])) rep str (pos + 1 + (x ++ ['}']).length) v,
            by simp [placeholderOf, List.append_assoc]⟩

theorem renderWith_preserves (x : Str) (hx : braceFreeP x) :
    ∀ (slots : List TemplateSlot) (values : List (Str × Str)) (story : Str),
      (∀ sl ∈ slots, braceFreeP sl.id ∧ sl.id ≠ x) →
      placeholderOf x <:+: story → placeholderOf x <:+: renderWith values story slots := by
  intro slots
  induction slots with
  | nil => intro values story _ h; exact h
  | cons sl rest ihs =>
    intro values story hall hocc
    have hsl := hall sl (List.mem_cons_self sl rest)
    have step := survival_step sl.id x (substitutedValue values sl) story hsl.1 hx
      (fun he => hsl.2 he.symm) story.length story 0 (le_refl _) hocc
    exact ihs values _ (fun s hs => hall s (List.mem_cons_of_mem sl hs)) step

theorem renderWith_eq_interleave (values : List (Str × Str)) :
    ∀ (slots : List TemplateSlot) (story : Str),
      renderWith values story slots =
        slots.foldl (fun rendered slot =>
          interleave (splitAll (placeholderOf slot.id) rendered)
            ((matchPositions (placeholderOf slot.id) rendered).map fun p =>
              getSubstitution (placeholderOf slot.id) rendered p (substitutedValue values slot)))
          story := by
  intro slots
  induction slots with
  | nil => intro story; rfl
  | cons sl rest ihs =>
    intro story
    show renderWith values (replaceAll (placeholderOf sl.id) (substitutedValue values sl) story)
        rest = _
    rw [ihs, replaceAll_eq_from,
      replaceAllFrom_eq_interleave _ _ story story.length story 0 (le_refl _)]
    rfl

/-- C1 as frozen is refuted by `$`-pattern expansion: JS
`String.prototype.replaceAll` passes a string replacement through
`GetSubstitution`, so the validator-accepted value `$&` is expanded to the
matched placeholder text instead of being substituted itself. -/
theorem dollar_value_inserts_match_not_value :
    renderStory (cs "{noun}") [⟨cs "noun", cs "A plural noun", cs "noun"⟩]
        [⟨some (cs "noun"), none, some (cs "$&")⟩] = cs "{noun}"
    ∧ cs "{noun}" ≠ cs "$&" := by decide

/-- C1 amended: `renderStory` is a total function (never throws); for each
slot it replaces every occurrence of `{slot.id}` — the current text splits
into occurrence-free chunks (`splitAll`; they reassemble to the text) which
are interleaved with the per-match `GetSubstitution` expansion of the
substituted value, the expansion being the substituted value itself whenever
it contains no `$`; and any placeholder `{x}` whose brace-free interior
names no slot id (all catalogue ids are brace-free) survives to the output
literally unchanged. -/
theorem renderStory_replaces_every_occurrence
    (story : Str) (slots : List TemplateSlot) (prompts : List PromptValue) (x : Str)
    (hx : braceFreeP x) (hids : ∀ sl ∈ slots, braceFreeP sl.id)
    (hunknown : ∀ sl ∈ slots, sl.id ≠ x) :
    renderStory story slots prompts =
      slots.foldl (fun rendered slot =>
        interleave (splitAll (placeholderOf slot.id) rendered)
          ((matchPositions (placeholderOf slot.id) rendered).map fun p =>
            getSubstitution (placeholderOf slot.id) rendered p
              (substitutedValue (buildValues prompts) slot))) story
    ∧ (∀ (slot : TemplateSlot) (rendered : Str),
        joinWith (placeholderOf slot.id) (splitAll (placeholderOf slot.id) rendered) = rendered
        ∧ ∀ chunk ∈ splitAll (placeholderOf slot.id) rendered,
            ¬ placeholderOf slot.id <:+: chunk)
    ∧ (∀ (matched str rep : Str) (pos : Nat), (∀ c ∈ rep, c ≠ '$') →
        getSubstitution matched str pos rep = rep)
    ∧ (placeholderOf x <:+: story → placeholderOf x <:+: renderStory story slots prompts) := by
  refine ⟨renderWith_eq_interleave _ slots story, ?_, ?_, ?_⟩
  · intro slot rendered
    exact ⟨joinWith_splitAll _ rendered.length rendered (le_refl _),
      splitAll_chunks_not_infix _ (by simp [placeholderOf]) rendered.length rendered (le_refl _)⟩
  · intro matched str rep pos h
    exact getSubstitution_literal matched str pos rep h
  · intro h
    exact renderWith_preserves x hx slots (buildValues prompts) story
      (fun sl hs => ⟨hids sl hs, hunknown sl hs⟩) h

theorem renderStory_replaces_every_occurrence_witness :
    braceFreeP (cs "mystery")
    ∧ (∀ sl ∈ BASE_SLOTS, braceFreeP sl.id)
    ∧ placeholderOf (cs "mystery") <:+:
        renderStory (cs "{name} met the {mystery} in the {place}") BASE_SLOTS [] := by
  refine ⟨by decide, by decide, ?_⟩
  exact (renderStory_replaces_every_occurrence
    (cs "{name} met the {mystery} in the {place}") BASE_SLOTS [] (cs "mystery")
    (by decide) (by decide) (by decide)).2.2.2 (by decide)

/-- C2 as frozen is refuted by `$`-pattern expansion: the sound value
`b$&m` is quoted to `"b$&m"` but JS `replaceAll` expands `$&` to the matched
placeholder, so the program renders `"b{sound}m"`, not the quoted value. -/
theorem dollar_sound_value_expands :
    renderStory (cs "{sound}") [⟨cs "sound", cs "A silly sound", cs "sound"⟩]
        [⟨some (cs "sound"), none, some (cs "b$&m")⟩] = cs "\"b{sound}m\""
    ∧ cs "\"b{sound}m\"" ≠ cs "\"b$&m\"" := by decide

/-- C2 amended: for a slot of type `sound` whose mapped (already trimmed)
value is non-empty, the substituted text is the value wrapped in double
quotes unless it already both starts and ends with a double quote, in which
case it is the value unchanged; `renderStory` replaces each placeholder
occurrence by the `GetSubstitution` expansion of this text (third conjunct),
which is the quoted text itself whenever the value contains no `$` (fourth
conjunct). -/
theorem renderStory_sound_quoting
    (story : Str) (slots : List TemplateSlot) (prompts : List PromptValue)
    (slot : TemplateSlot) (v : Str)
    (htype : slot.type = cs "sound")
    (hv : lookupVal (buildValues prompts) slot.id = some v)
    (hne : v ≠ []) :
    (¬(v.head? = some '"' ∧ v.getLast? = some '"') →
      substitutedValue (buildValues prompts) slot = '"' :: v ++ ['"'])
    ∧ ((v.head? = some '"' ∧ v.getLast? = some '"') →
      substitutedValue (buildValues prompts) slot = v)
    ∧ renderStory story slots prompts =
        slots.foldl (fun rendered sl =>
          replaceAll (placeholderOf sl.id) (substitutedValue (buildValues prompts) sl) rendered)
          story
    ∧ ((∀ c ∈ v, c ≠ '$') → ∀ (matched str : Str) (pos : Nat),
        getSubstitution matched str pos (substitutedValue (buildValues prompts) slot)
          = substitutedValue (buildValues prompts) slot) := by
  refine ⟨?_, ?_, rfl, ?_⟩
  · intro hq
    simp only [substitutedValue, hv, Option.getD_some]
    rw [if_pos ⟨htype, hne, hq⟩]
  · intro hq
    simp only [substitutedValue, hv, Option.getD_some]
    rw [if_neg]
    rintro ⟨-, -, hq'⟩
    exact hq' hq
  · intro hdollar matched str pos
    refine getSubstitution_literal matched str pos _ ?_
    intro c hc
    simp only [substitutedValue, hv, Option.getD_some] at hc
    by_cases hq : slot.type = cs "sound" ∧ v ≠ []
        ∧ ¬(v.head? = some '"' ∧ v.getLast? = some '"')
    · rw [if_pos hq] at hc
      rcases List.mem_cons.mp hc with rfl | hc'
      · decide
      · rcases List.mem_append.mp hc' with hc'' | hc''
        · exact hdollar c hc''
        · simp only [List.mem_singleton] at hc''
          subst hc''
          decide
    · rw [if_neg hq] at hc
      exact hdollar c hc

theorem renderStory_sound_quoting_witness :
    lookupVal (buildValues [⟨some (cs "sound"), none, some (cs " boom ")⟩]) (cs "sound")
        = some (cs "boom")
    ∧ substitutedValue (buildValues [⟨some (cs "sound"), none, some (cs " boom ")⟩])
        ⟨cs "sound", cs "A silly sound", cs "sound"⟩ = '"' :: cs "boom" ++ ['"'] := by
  refine ⟨by decide, ?_⟩
  exact (renderStory_sound_quoting [] [] [⟨some (cs "sound"), none, some (cs " boom ")⟩]
    ⟨cs "sound", cs "A silly sound", cs "sound"⟩ (cs "boom") rfl (by decide) (by decide)).1
    (by decide)

/-! ## The value map built from the prompt list -/

/-- The raw (untrimmed) value of the first prompt the loop stores under key
`k`: the first prompt with a truthy value and truthy effective key equal to
`k`. -/
def firstMapped : List PromptValue → Str → Option Str
  | [], _ => none
  | p :: ps, k =>
    match p.value with
    | none => firstMapped ps k
    | some v =>
      if v = [] then firstMapped ps k
      else
        match effectiveKey p with
        | none => firstMapped ps k
        | some k' =>
          if k' = [] then firstMapped ps k
          else if k' = k then some v
          else firstMapped ps k

theorem lookupVal_append_of_some {α : Type} {l1 : List (Str × α)} {k : Str} {v : α}
    (h : lookupVal l1 k = some v) (l2 : List (Str × α)) :
    lookupVal (l1 ++ l2) k = some v := by
  induction l1 with
  | nil => simp [lookupVal] at h
  | cons kv rest ih =>
    obtain ⟨k1, v1⟩ := kv
    simp only [lookupVal, List.cons_append] at h ⊢
    by_cases hk : k1 = k
    · rwa [if_pos hk] at h ⊢
    · rw [if_neg hk] at h ⊢
      exact ih h

theorem lookupVal_append_of_none {α : Type} {l1 : List (Str × α)} {k : Str}
    (h : lookupVal l1 k = none) (l2 : List (Str × α)) :
    lookupVal (l1 ++ l2) k = lookupVal l2 k := by
  induction l1 with
  | nil => simp
  | cons kv rest ih =>
    obtain ⟨k1, v1⟩ := kv
    simp only [lookupVal, List.cons_append] at h ⊢
    by_cases hk : k1 = k
    · rw [if_pos hk] at h; exact absurd h (by simp)
    · rw [if_neg hk] at h ⊢
      exact ih h

/-- The map the renderer loop builds binds `k` to the trimmed value of the
first prompt stored under `k`. -/
theorem buildValuesFrom_lookup (k : Str) :
    ∀ (ps : List PromptValue) (acc : List (Str × Str)),
      lookupVal (buildValuesFrom acc ps) k =
        match lookupVal acc k with
        | some v => some v
        | none => Option.map jsTrim (firstMapped ps k) := by
  intro ps
  induction ps with
  | nil =>
    intro acc
    rcases h : lookupVal acc k with - | v <;> simp [buildValuesFrom, firstMapped, h]
  | cons p ps ih =>
    intro acc
    show lookupVal (buildValuesFrom (buildStep acc p) ps) k = _
    rw [ih (buildStep acc p)]
    rcases hval : p.value with - | v
    · have hstep : buildStep acc p = acc := by simp [buildStep, hval]
      have hfm : firstMapped (p :: ps) k = firstMapped ps k := by simp [firstMapped, hval]
      rw [hstep, hfm]
    · by_cases hv : v = []
      · have hstep : buildStep acc p = acc := by simp [buildStep, hval, hv]
        have hfm : firstMapped (p :: ps) k = firstMapped ps k := by
          simp [firstMapped, hval, hv]
        rw [hstep, hfm]
      · rcases hkey : effectiveKey p with - | k'
        · have hstep : buildStep acc p = acc := by simp [buildStep, hval, hv, hkey]
          have hfm : firstMapped (p :: ps) k = firstMapped ps k := by
            simp [firstMapped, hval, hv, hkey]
          rw [hstep, hfm]
        · by_cases hk' : k' = []
          · have hstep : buildStep acc p = acc := by simp [buildStep, hval, hv, hkey, hk']
            have hfm : firstMapped (p :: ps) k = firstMapped ps k := by
              simp [firstMapped, hval, hv, hkey, hk']
            rw [hstep, hfm]
          · by_cases hpresent : (lookupVal acc k').isSome
            · -- key already bound: the loop skips this prompt
              have hstep : buildStep acc p = acc := by
                simp [buildStep, hval, hv, hkey, hk', hpresent]
              rw [hstep]
              by_cases hkk : k' = k
              · subst hkk
                obtain ⟨w, hw⟩ := Option.isSome_iff_exists.mp hpresent
                rw [hw]
              · have hfm : firstMapped (p :: ps) k = firstMapped ps k := by
                  simp [firstMapped, hval, hv, hkey, hk', hkk]
                rw [hfm]
            · -- fresh key: the loop appends `(k', jsTrim v)`
              have hnone : lookupVal acc k' = none := by
                rcases h : lookupVal acc k' with - | w
                · rfl
                · rw [h] at hpresent; simp at hpresent
              have hstep : buildStep acc p = acc ++ [(k', jsTrim v)] := by
                simp [buildStep, hval, hv, hkey, hk', hnone]
              rw [hstep]
              by_cases hkk : k' = k
              · subst hkk
                have hfm : firstMapped (p :: ps) k' = some v := by
                  simp [firstMapped, hval, hv, hkey, hk']
                have hlk : lookupVal (acc ++ [(k', jsTrim v)]) k' = some (jsTrim v) := by
                  rw [lookupVal_append_of_none hnone]
                  simp [lookupVal]
                rw [hlk, hfm, hnone]
                rfl
              · have hfm : firstMapped (p :: ps) k = firstMapped ps k := by
                  simp [firstMapped, hval, hv, hkey, hk', hkk]
                rw [hfm]
                rcases h : lookupVal acc k with - | w
                · have hlk : lookupVal (acc ++ [(k', jsTrim v)]) k = none := by
                    rw [lookupVal_append_of_none h]
                    simp [lookupVal, hkk]
                  rw [hlk]
                · rw [lookupVal_append_of_some h]

theorem buildValues_lookup (prompts : List PromptValue) (k : Str) :
    lookupVal (buildValues prompts) k = Option.map jsTrim (firstMapped prompts k) := by
  rw [buildValues, buildValuesFrom_lookup k prompts []]
  rfl

/-- C3 as frozen is refuted on sound-typed slots (see the counterexample):
there the renderer substitutes the quoted form, not the bare trimmed value. -/
theorem sound_slot_substitutes_quoted_not_plain :
    renderStory (cs "{sound}") [⟨cs "sound", cs "A silly sound", cs "sound"⟩]
        [⟨some (cs "sound"), none, some (cs "boom")⟩] = cs "\"boom\""
    ∧ cs "\"boom\"" ≠ cs "boom" := by decide

/-- C3 amended: for every slot whose type is not `sound`, if the loop maps a
(non-empty) raw value `w` to the slot's id then the substituted text is `w`
with surrounding whitespace trimmed, and if no value is mapped the
substituted text is the literal `something`; `renderStory` replaces each
placeholder occurrence by the `GetSubstitution` expansion of this text
(third conjunct), which is the text itself whenever the trimmed value
contains no `$` — and always for the `something` fallback (fourth and fifth
conjuncts).  Sound-typed slots additionally pass the result through the
quoting rule of C2. -/
theorem renderStory_trim_and_fallback
    (story : Str) (slots : List TemplateSlot) (prompts : List PromptValue)
    (slot : TemplateSlot)
    (hsound : slot.type ≠ cs "sound") :
    (∀ w, firstMapped prompts slot.id = some w →
      substitutedValue (buildValues prompts) slot = jsTrim w)
    ∧ (firstMapped prompts slot.id = none →
      substitutedValue (buildValues prompts) slot = cs "something")
    ∧ renderStory story slots prompts =
        slots.foldl (fun rendered sl =>
          replaceAll (placeholderOf sl.id) (substitutedValue (buildValues prompts) sl) rendered)
          story
    ∧ (∀ w, firstMapped prompts slot.id = some w → (∀ c ∈ jsTrim w, c ≠ '$') →
        ∀ (matched str : Str) (pos : Nat),
          getSubstitution matched str pos (substitutedValue (buildValues prompts) slot)
            = substitutedValue (buildValues prompts) slot)
    ∧ (firstMapped prompts slot.id = none → ∀ (matched str : Str) (pos : Nat),
        getSubstitution matched str pos (substitutedValue (buildValues prompts) slot)
          = substitutedValue (buildValues prompts) slot) := by
  have htrim : ∀ w, firstMapped prompts slot.id = some w →
      substitutedValue (buildValues prompts) slot = jsTrim w := by
    intro w hw
    simp only [substitutedValue, buildValues_lookup, hw]
    rw [if_neg]
    · simp
    · rintro ⟨ht, -⟩
      exact hsound ht
  have hfall : firstMapped prompts slot.id = none →
      substitutedValue (buildValues prompts) slot = cs "something" := by
    intro hw
    simp only [substitutedValue, buildValues_lookup, hw]
    rw [if_neg]
    · simp
    · rintro ⟨ht, -⟩
      exact hsound ht
  refine ⟨htrim, hfall, rfl, ?_, ?_⟩
  · intro w hw hdollar matched str pos
    rw [htrim w hw]
    exact getSubstitution_literal matched str pos _ hdollar
  · intro hw matched str pos
    rw [hfall hw]
    exact getSubstitution_literal matched str pos _ (by decide)

theorem renderStory_trim_and_fallback_witness :
    (cs "name" : Str) ≠ cs "sound"
    ∧ firstMapped [⟨some (cs "name"), none, some (cs "  Sam  ")⟩] (cs "name")
        = some (cs "  Sam  ")
    ∧ substitutedValue (buildValues [⟨some (cs "name"), none, some (cs "  Sam  ")⟩])
        ⟨cs "name", cs "A famous name", cs "name"⟩ = cs "Sam"
    ∧ substitutedValue (buildValues []) ⟨cs "name", cs "A famous name", cs "name"⟩
        = cs "something" := by
  refine ⟨by decide, by decide, ?_, ?_⟩
  · have h := (renderStory_trim_and_fallback [] [] [⟨some (cs "name"), none, some (cs "  Sam  ")⟩]
      ⟨cs "name", cs "A famous name", cs "name"⟩ (by decide)).1 (cs "  Sam  ") (by decide)
    rw [h]
    decide
  · exact (renderStory_trim_and_fallback [] [] []
      ⟨cs "name", cs "A famous name", cs "name"⟩ (by decide)).2.1 (by decide)

/-- C4: story rendering is deterministic — two prompt lists inducing the same
slot-to-value map render identically (in particular, two calls on identical
inputs agree). -/
theorem renderStory_deterministic (story : Str) (slots : List TemplateSlot)
    (ps1 ps2 : List PromptValue) (h : buildValues ps1 = buildValues ps2) :
    renderStory story slots ps1 = renderStory story slots ps2 := by
  unfold renderStory
  rw [h]

theorem renderStory_deterministic_witness :
    buildValues [⟨some (cs "sound"), none, some (cs "boom")⟩]
      = buildValues [⟨some (cs "sound"), none, some (cs "boom")⟩,
          ⟨some (cs "sound"), none, some (cs "zap")⟩]
    ∧ renderStory (cs "{sound}") BASE_SLOTS [⟨some (cs "sound"), none, some (cs "boom")⟩]
      = renderStory (cs "{sound}") BASE_SLOTS [⟨some (cs "sound"), none, some (cs "boom")⟩,
          ⟨some (cs "sound"), none, some (cs "zap")⟩] := by
  refine ⟨by decide, ?_⟩
  exact renderStory_deterministic (cs "{sound}") BASE_SLOTS _ _ (by decide)

/-- The literal two-player submissions of spec scenario 1. -/
def scenarioPrompts : List PromptValue :=
  [ ⟨some (cs "adjective"), none, some (cs "brave")⟩,
    ⟨some (cs "name"), none, some (cs "Sam")⟩,
    ⟨some (cs "verb"), none, some (cs "running")⟩,
    ⟨some (cs "place"), none, some (cs "forest")⟩,
    ⟨some (cs "sound"), none, some (cs "boom")⟩,
    ⟨some (cs "noun"), none, some (cs "squirrels")⟩ ]

set_option maxRecDepth 40000 in
/-- C5: rendering the `t-forest-mishap` template with the scenario
submissions yields a story containing the auto-quoted sound `"boom"` and the
name `Sam` as exact substrings. -/
theorem forest_mishap_reveal_contains_quoted_boom_and_Sam :
    cs "\"boom\"" <:+:
      renderStory (getTemplateDefinition (some (cs "t-forest-mishap"))).story
        (getTemplateDefinition (some (cs "t-forest-mishap"))).slots scenarioPrompts
    ∧ cs "Sam" <:+:
      renderStory (getTemplateDefinition (some (cs "t-forest-mishap"))).story
        (getTemplateDefinition (some (cs "t-forest-mishap"))).slots scenarioPrompts := by
  decide

/-! ## Template catalogue fallback (C10) -/

theorem lookupVal_mem {α : Type} :
    ∀ (l : List (Str × α)) (k : Str) (v : α),
      lookupVal l k = some v → v ∈ l.map Prod.snd := by
  intro l
  induction l with
  | nil => intro k v h; simp [lookupVal] at h
  | cons kv rest ih =>
    intro k v h
    obtain ⟨k1, v1⟩ := kv
    simp only [lookupVal] at h
    by_cases hk : k1 = k
    · rw [if_pos hk] at h
      simp only [List.map_cons, List.mem_cons]
      exact Or.inl (Option.some.inj h).symm
    · rw [if_neg hk] at h
      exact List.mem_cons_of_mem _ (ih k v h)

/-- C10 as frozen is refuted through the prototype chain: bracket lookup on
the catalogue object literal finds the inherited, truthy
`Object.prototype.toString`, so `getTemplateDefinition("toString")` returns
that member at runtime — not a catalogue entry and not the first-entry
fallback. -/
theorem toString_returns_proto_member :
    getTemplateDefinitionJs (some (cs "toString"))
      = JsPropertyValue.protoMember (cs "toString")
    ∧ ∀ d ∈ TEMPLATE_DEFINITIONS.map Prod.snd,
        getTemplateDefinitionJs (some (cs "toString")) ≠ JsPropertyValue.templateDef d := by
  decide

/-- C10 amended: `getTemplateDefinition` is total and never reports a
not-found error.  For an id resolving to an own catalogue entry it returns
that entry; for null, undefined, the empty string, and any id that is
neither a catalogue key nor an inherited `Object.prototype` member name it
silently falls back to the first catalogue entry; but for ids naming
inherited `Object.prototype` members (`toString`, `constructor`, ...) the
truthiness guard passes and the inherited member itself is returned — a
non-catalogue value, not the fallback. -/
theorem getTemplateDefinition_total_fallback (templateId : Option Str) :
    (∀ d, resolveTemplateId templateId = some d →
      getTemplateDefinitionJs templateId = JsPropertyValue.templateDef d
      ∧ d ∈ TEMPLATE_DEFINITIONS.map Prod.snd)
    ∧ ((∀ id, templateId = some id →
          id = [] ∨ (lookupVal TEMPLATE_DEFINITIONS id = none ∧ id ∉ OBJECT_PROTOTYPE_KEYS)) →
      getTemplateDefinitionJs templateId
        = JsPropertyValue.templateDef
            (List.headD (TEMPLATE_DEFINITIONS.map Prod.snd) ⟨[], [], [], [], [], []⟩))
    ∧ (∀ id, templateId = some id → id ≠ [] → lookupVal TEMPLATE_DEFINITIONS id = none →
        id ∈ OBJECT_PROTOTYPE_KEYS →
        getTemplateDefinitionJs templateId = JsPropertyValue.protoMember id) := by
  refine ⟨?_, ?_, ?_⟩
  · intro d h
    rcases templateId with - | id
    · exact absurd h (by simp [resolveTemplateId])
    · by_cases hid : id = []
      · exact absurd h (by simp [resolveTemplateId, hid])
      · have hre : resolveTemplateId (some id) = lookupVal TEMPLATE_DEFINITIONS id := by
          simp [resolveTemplateId, hid]
        rw [hre] at h
        constructor
        · simp only [getTemplateDefinitionJs, if_neg hid, jsRecordLookup, h]
        · exact lookupVal_mem TEMPLATE_DEFINITIONS id d h
  · intro hyp
    rcases templateId with - | id
    · rfl
    · rcases hyp id rfl with hid | ⟨hlk, hproto⟩
      · simp only [getTemplateDefinitionJs, if_pos hid]
      · by_cases hid : id = []
        · simp only [getTemplateDefinitionJs, if_pos hid]
        · simp only [getTemplateDefinitionJs, if_neg hid, jsRecordLookup, hlk, if_neg hproto]
  · intro id h hne hlk hmem
    subst h
    simp only [getTemplateDefinitionJs, if_neg hne, jsRecordLookup, hlk, if_pos hmem]

theorem getTemplateDefinition_total_fallback_witness :
    getTemplateDefinitionJs (some (cs "t-nonexistent"))
      = JsPropertyValue.templateDef
          (List.headD (TEMPLATE_DEFINITIONS.map Prod.snd) ⟨[], [], [], [], [], []⟩)
    ∧ getTemplateDefinitionJs (some (cs "__proto__"))
      = JsPropertyValue.protoMember (cs "__proto__") := by
  constructor
  · refine (getTemplateDefinition_total_fallback (some (cs "t-nonexistent"))).2.1 ?_
    intro id h
    injection h with h
    subst h
    exact Or.inr ⟨by decide, by decide⟩
  · exact (getTemplateDefinition_total_fallback (some (cs "__proto__"))).2.2 (cs "__proto__")
      rfl (by decide) (by decide) (by decide)

/-! ## Prompt validation (web/src/lib/prompt-validation) -/

/-- A `{ min, max }` length-limit record. -/
structure Limits where
  min : Nat
  max : Nat
deriving DecidableEq

def DEFAULT_LIMITS : Limits := ⟨1, 60⟩

def SLOT_LIMITS : List (Str × Limits) :=
  [ (cs "adjective", ⟨1, 24⟩), (cs "name", ⟨1, 40⟩), (cs "verb", ⟨1, 30⟩),
    (cs "place", ⟨1, 40⟩), (cs "sound", ⟨1, 24⟩), (cs "noun", ⟨1, 40⟩) ]

/-- `promptLimits(slotType)`: default on a falsy slot type, else the
lower-cased lookup with default fallback. -/
def promptLimits (slotType : Option Str) : Limits :=
  match slotType with
  | none => DEFAULT_LIMITS
  | some s =>
    if s = [] then DEFAULT_LIMITS
    else (lookupVal SLOT_LIMITS (s.map jsToLower)).getD DEFAULT_LIMITS

def BLOCKED_TERMS : List Str :=
  [ cs "porn", cs "porno", cs "pussy", cs "dick", cs "cock", cs "penis", cs "vagina",
    cs "boob", cs "boobs", cs "tits", cs "tit", cs "cum", cs "sex", cs "sexy",
    cs "horny", cs "rape", cs "nazi", cs "hitler", cs "terrorist", cs "fuck",
    cs "fucking", cs "shit", cs "bitch", cs "cunt", cs "asshole", cs "bastard",
    cs "motherfucker" ]

/-- The `LEET_MAP` character substitution (`LEET_MAP[char] ?? char`). -/
def leetFold (c : Char) : Char :=
  if c = '@' then 'a'
  else if c = '$' then 's'
  else if c = '0' then 'o'
  else if c = '1' then 'i'
  else if c = '3' then 'e'
  else if c = '4' then 'a'
  else if c = '5' then 's'
  else if c = '7' then 't'
  else if c = '8' then 'b'
  else if c = '9' then 'g'
  else if c = '!' then 'i'
  else if c = '+' then 't'
  else c

/-- The character class kept by `replace(/[^a-z0-9\s]/g, " ")`. -/
def isStripKept (c : Char) : Bool :=
  (97 ≤ c.toNat && c.toNat ≤ 122) || (48 ≤ c.toNat && c.toNat ≤ 57) || isJsSpace c

/-- JS regex `.` (no `s` flag): any character except a line terminator. -/
def isRegexDot (c : Char) : Bool :=
  !(c.toNat = 10 || c.toNat = 13 || c.toNat = 0x2028 || c.toNat = 0x2029)

/-- Scanner for `replace(/(.)\1{2,}/g, "$1$1")`: a run of three or more equal
non-line-terminator characters is collapsed to two. -/
def collapseGo : Nat → Str → Str
  | _, [] => []
  | 0, s => s
  | fuel + 1, c :: rest =>
    if isRegexDot c ∧ 2 ≤ (rest.takeWhile (· = c)).length then
      c :: c :: collapseGo fuel (rest.drop (rest.takeWhile (· = c)).length)
    else c :: collapseGo fuel rest

def collapseRuns (s : Str) : Str := collapseGo s.length s

/-- `normalizePrompt`: lower-case, fold leetspeak, replace every character
outside `[a-z0-9\s]` by a space, collapse long runs. -/
def normalizePrompt (value : Str) : Str :=
  let lowered := (value.map jsToLower).map leetFold
  let stripped := lowered.map fun c => if isStripKept c then c else ' '
  collapseRuns stripped

/-- JS regex `\w` (word characters, for `\b` boundaries). -/
def isWordChar (c : Char) : Bool :=
  (97 ≤ c.toNat && c.toNat ≤ 122) || (65 ≤ c.toNat && c.toNat ≤ 90) ||
  (48 ≤ c.toNat && c.toNat ≤ 57) || c.toNat = 95

/-- The `\b` assertion after a match: end of input or a non-word character. -/
def boundaryAfter : Str → Bool
  | [] => true
  | d :: _ => !isWordChar d

/-- Match `\s*c₁\s*c₂...` (the tail of the spaced term pattern, each letter
preceded by an optional whitespace gap), returning the rest of the input.
Whitespace and the term's letters are disjoint, so the regex backtracking is
equivalent to this greedy scan. -/
def matchTail : Str → Str → Option Str
  | [], s => some s
  | c :: t, s =>
    match s.dropWhile isJsSpace with
    | [] => none
    | d :: rest => if d = c then matchTail t rest else none

/-- Match the spaced term pattern `c₀\s*c₁\s*...` at the current position. -/
def matchSpacedAt : Str → Str → Option Str
  | [], s => some s
  | _ :: _, [] => none
  | c :: t, d :: rest => if d = c then matchTail t rest else none

/-- Search `new RegExp("\\b" + t.split("").map(escapeRegex).join("\\s*") + "\\b")`
over the input.  `pw` records whether the previous character is a word
character (for the leading `\b`); the terms are all-letter so `escapeRegex`
is the identity on them. -/
def searchSpaced (t : Str) : Bool → Str → Bool
  | _, [] => false
  | pw, d :: rest =>
    (!pw &&
      match matchSpacedAt t (d :: rest) with
      | some r => boundaryAfter r
      | none => false)
    || searchSpaced t (isWordChar d) rest

def spacedHit (t s : Str) : Bool := searchSpaced t false s

/-- Search `new RegExp("\\b" + escapeRegex(term) + "\\b")` over the input. -/
def searchWhole (t : Str) : Bool → Str → Bool
  | _, [] => false
  | pw, d :: rest =>
    (!pw && t.isPrefixOf (d :: rest) && boundaryAfter (List.drop t.length (d :: rest)))
    || searchWhole t (isWordChar d) rest

def wholeHit (t s : Str) : Bool := searchWhole t false s

def BLOCKED_MESSAGE : String :=
  "That response includes language we can" ++ String.singleton apostrophe ++
    "t accept. Please try a different word or phrase."

/-- `moderationBlockReason(value)`: null on a falsy or whitespace-only value,
else the blocked message when any blocked term matches the normalised value
as a whole word (plain or with whitespace-spread letters). -/
def moderationBlockReason (value : Str) : Option String :=
  if value = [] ∨ jsTrim value = [] then none
  else
    if BLOCKED_TERMS.any (fun t =>
        wholeHit t (normalizePrompt value) || spacedHit t (normalizePrompt value)) then
      some BLOCKED_MESSAGE
    else none

def EMPTY_MESSAGE : String := "Please add a response before submitting."

def CHARSET_MESSAGE : String :=
  "That response includes characters we can" ++ String.singleton apostrophe ++
    "t read yet. Use letters, numbers, and common punctuation only, and remove emoji or control characters."

def TOO_SHORT_MESSAGE : String := "That response is too short. Please add a little more detail."

def tooLongMessage (max : Nat) : String :=
  "That response is too long. Please keep it under " ++ toString max ++ " characters."

/-- `getPromptIssue(value, slotType)`: the validation pipeline — emptiness,
printable-ASCII charset on the trimmed value, slot-type length limits, then
the moderation filter; null when the value is accepted. -/
def getPromptIssue (value : Str) (slotType : Option Str) : Option String :=
  if value = [] ∨ jsTrim value = [] then some EMPTY_MESSAGE
  else
    let trimmed := jsTrim value
    if trimmed.any (fun c => c.toNat < 32 || 126 < c.toNat) then some CHARSET_MESSAGE
    else
      let lim := promptLimits slotType
      if trimmed.length < lim.min then some TOO_SHORT_MESSAGE
      else if lim.max < trimmed.length then some (tooLongMessage lim.max)
      else
        match moderationBlockReason trimmed with
        | some reason => some reason
        | none => none

/-- `isReadable(value, slotType)`. -/
def isReadable (value : Str) (slotType : Option Str) : Bool :=
  (getPromptIssue value slotType).isNone

/-! ## Length boundaries (C6) and empty/charset rejection (C8) -/

/-- C8 as frozen is refuted by a value whose out-of-range character sits in
trimmed-away whitespace: `"a\n"` contains a control character yet is
accepted, because the validator checks the charset only on the trimmed
value. -/
theorem trailing_newline_accepted :
    ('\n' ∈ cs "a\n" ∧ '\n'.toNat < 32)
    ∧ getPromptIssue (cs "a\n") (some (cs "noun")) = none := by decide

/-- C8 amended: the validator rejects every value that is empty or
whitespace-only (with the please-add message), and every value whose trimmed
form contains a character outside printable ASCII (with the charset
message); no value whose trimmed form contains such a character is ever
accepted. -/
theorem validator_rejects_empty_and_unreadable (value : Str) (slotType : Option Str) :
    (jsTrim value = [] → getPromptIssue value slotType = some EMPTY_MESSAGE)
    ∧ ((∃ c ∈ jsTrim value, c.toNat < 32 ∨ 126 < c.toNat) →
      getPromptIssue value slotType = some CHARSET_MESSAGE) := by
  constructor
  · intro h
    unfold getPromptIssue
    rw [if_pos (Or.inr h)]
  · rintro ⟨c, hc, hout⟩
    have hguard : ¬(value = [] ∨ jsTrim value = []) := by
      rintro (rfl | h)
      · simp [jsTrim] at hc
      · rw [h] at hc
        simp at hc
    have hany : (jsTrim value).any (fun c => c.toNat < 32 || 126 < c.toNat) = true := by
      rw [List.any_eq_true]
      refine ⟨c, hc, ?_⟩
      simp only [Bool.or_eq_true, decide_eq_true_eq]
      omega
    unfold getPromptIssue
    rw [if_neg hguard]
    simp only [hany]
    rw [if_pos (by simp)]

theorem validator_rejects_empty_and_unreadable_witness :
    getPromptIssue (cs "   ") (some (cs "noun")) = some EMPTY_MESSAGE
    ∧ getPromptIssue (cs "café") (some (cs "noun")) = some CHARSET_MESSAGE := by
  constructor
  · exact (validator_rejects_empty_and_unreadable (cs "   ") (some (cs "noun"))).1 (by decide)
  · exact (validator_rejects_empty_and_unreadable (cs "café") (some (cs "noun"))).2
      ⟨'é', by decide, by decide⟩

/-! ## Whole-word blocked-term matching (C7)

`SpellsTail` / `SpellsWord` / `SpacedOccur` follow the spec's words: the
normalised text contains the blocked term as a whole word, allowing
whitespace between its letters.  The lemmas below prove the source's regex
scanners equivalent to that declarative description. -/

/-- `w` spells the tail letters of a term, each preceded by an optional
whitespace gap (`\s*c₁\s*c₂...`). -/
def SpellsTail : Str → Str → Prop
  | [], w => w = []
  | c :: t, w => ∃ g w', (∀ x ∈ g, isJsSpace x = true) ∧ w = g ++ c :: w' ∧ SpellsTail t w'

/-- `w` spells the term with optional whitespace gaps between letters
(no gap before the first letter). -/
def SpellsWord : Str → Str → Prop
  | [], w => w = []
  | c :: t, w => ∃ w', w = c :: w' ∧ SpellsTail t w'

/-- Spec-side predicate: the term occurs in `n` as a whole word (non-word
characters or the string ends on both sides), possibly with whitespace
spread between its letters. -/
def SpacedOccur (t n : Str) : Prop :=
  ∃ pre w post, n = pre ++ w ++ post ∧ SpellsWord t w
    ∧ (pre = [] ∨ ∃ c, pre.getLast? = some c ∧ isWordChar c = false)
    ∧ (post = [] ∨ ∃ c, post.head? = some c ∧ isWordChar c = false)

/-- The leading `\b` as the scanner tracks it: the character before the
current position (if any) is not a word character. -/
def prevOk (pw : Bool) (pre : Str) : Prop :=
  match pre.getLast? with
  | none => pw = false
  | some c => isWordChar c = false

theorem dropWhile_append_all {α : Type} (p : α → Bool) :
    ∀ (g l : List α), (∀ x ∈ g, p x = true) →
      List.dropWhile p (g ++ l) = List.dropWhile p l := by
  intro g
  induction g with
  | nil => intro l _; rfl
  | cons a g' ih =>
    intro l hg
    rw [List.cons_append, List.dropWhile_cons, if_pos (hg a (List.mem_cons_self a g'))]
    exact ih l fun x hx => hg x (List.mem_cons_of_mem a hx)

theorem matchTail_sound :
    ∀ (t s r : Str), matchTail t s = some r → ∃ w, SpellsTail t w ∧ s = w ++ r := by
  intro t
  induction t with
  | nil =>
    intro s r h
    simp only [matchTail, Option.some.injEq] at h
    exact ⟨[], rfl, by rw [h]; rfl⟩
  | cons c t' ih =>
    intro s r h
    simp only [matchTail] at h
    rcases hd : s.dropWhile isJsSpace with - | ⟨d, rest⟩
    · rw [hd] at h
      have h' : (none : Option Str) = some r := h
      exact absurd h' (by simp)
    · rw [hd] at h
      have h' : (if d = c then matchTail t' rest else none) = some r := h
      by_cases hdc : d = c
      · rw [if_pos hdc] at h'
        obtain ⟨w', hsp, hrest⟩ := ih rest r h'
        refine ⟨s.takeWhile isJsSpace ++ c :: w',
          ⟨s.takeWhile isJsSpace, w', fun x hx => List.mem_takeWhile_imp hx, rfl, hsp⟩, ?_⟩
        conv_lhs => rw [← List.takeWhile_append_dropWhile isJsSpace s]
        rw [hd, hdc, hrest]
        simp
      · rw [if_neg hdc] at h'
        exact absurd h' (by simp)

theorem matchTail_complete :
    ∀ (t w r : Str), SpellsTail t w → (∀ c ∈ t, isJsSpace c = false) →
      matchTail t (w ++ r) = some r := by
  intro t
  induction t with
  | nil =>
    intro w r hsp _
    have hw : w = [] := hsp
    subst hw
    rfl
  | cons c t' ih =>
    intro w r hsp hterm
    obtain ⟨g, w', hg, hw, hsp'⟩ := hsp
    subst hw
    have hc : isJsSpace c = false := hterm c (List.mem_cons_self c t')
    have hd : List.dropWhile isJsSpace ((g ++ c :: w') ++ r) = c :: (w' ++ r) := by
      rw [List.append_assoc, List.cons_append, dropWhile_append_all isJsSpace g _ hg,
        List.dropWhile_cons, if_neg (by simp [hc])]
    simp only [matchTail, hd, if_pos rfl]
    exact ih w' r hsp' fun x hx => hterm x (List.mem_cons_of_mem c hx)

theorem matchSpacedAt_sound :
    ∀ (t s r : Str), matchSpacedAt t s = some r → ∃ w, SpellsWord t w ∧ s = w ++ r := by
  intro t s r h
  rcases t with - | ⟨c, t'⟩
  · simp only [matchSpacedAt, Option.some.injEq] at h
    exact ⟨[], rfl, by rw [h]; rfl⟩
  · rcases s with - | ⟨d, rest⟩
    · exact absurd h (by simp [matchSpacedAt])
    · simp only [matchSpacedAt] at h
      by_cases hdc : d = c
      · rw [if_pos hdc] at h
        obtain ⟨w', hsp', hrest⟩ := matchTail_sound t' rest r h
        exact ⟨c :: w', ⟨w', rfl, hsp'⟩, by rw [hdc, hrest]; rfl⟩
      · rw [if_neg hdc] at h
        exact absurd h (by simp)

theorem matchSpacedAt_complete :
    ∀ (t w r : Str), SpellsWord t w → (∀ c ∈ t, isJsSpace c = false) →
      matchSpacedAt t (w ++ r) = some r := by
  intro t w r hsp hterm
  rcases t with - | ⟨c, t'⟩
  · have hw : w = [] := hsp
    subst hw
    rfl
  · obtain ⟨w', hw, hsp'⟩ := hsp
    subst hw
    simp only [List.cons_append, matchSpacedAt, if_pos rfl]
    exact matchTail_complete t' w' r hsp' fun x hx => hterm x (List.mem_cons_of_mem c hx)

theorem SpellsTail_refl : ∀ t : Str, SpellsTail t t := by
  intro t
  induction t with
  | nil => rfl
  | cons c t' ih => exact ⟨[], t', by simp, rfl, ih⟩

theorem SpellsWord_refl (t : Str) : SpellsWord t t := by
  rcases t with - | ⟨c, t'⟩
  · rfl
  · exact ⟨t', rfl, SpellsTail_refl t'⟩

theorem prevOk_cons (pw : Bool) (d : Char) (pre' : Str) :
    prevOk pw (d :: pre') ↔ prevOk (isWordChar d) pre' := by
  unfold prevOk
  rcases pre' with - | ⟨e, pre''⟩
  · exact Iff.rfl
  · rw [List.getLast?_cons_cons]
    rcases hg : (e :: pre'').getLast? with - | c
    · exact absurd (List.getLast?_eq_none_iff.mp hg) (by simp)
    · exact Iff.rfl

theorem prevOk_false_iff (pre : Str) :
    prevOk false pre ↔ (pre = [] ∨ ∃ c, pre.getLast? = some c ∧ isWordChar c = false) := by
  unfold prevOk
  rcases hg : pre.getLast? with - | c
  · simp [List.getLast?_eq_none_iff.mp hg]
  · constructor
    · intro h
      exact Or.inr ⟨c, rfl, h⟩
    · rintro (rfl | ⟨c', hc', h⟩)
      · simp at hg
      · rw [Option.some.injEq] at hc'
        subst hc'
        exact h

theorem searchSpaced_iff (t : Str) (hne : t ≠ [])
    (hterm : ∀ c ∈ t, isWordChar c = true ∧ isJsSpace c = false) :
    ∀ (s : Str) (pw : Bool),
      searchSpaced t pw s = true ↔
        ∃ pre w post, s = pre ++ w ++ post ∧ SpellsWord t w ∧ prevOk pw pre
          ∧ (post = [] ∨ ∃ c, post.head? = some c ∧ isWordChar c = false) := by
  intro s
  induction s with
  | nil =>
    intro pw
    constructor
    · intro h
      exact absurd h (by simp [searchSpaced])
    · rintro ⟨pre, w, post, heq, hsp, -, -⟩
      exfalso
      rcases List.append_eq_nil.mp heq.symm with ⟨h1, -⟩
      rcases List.append_eq_nil.mp h1 with ⟨-, h4⟩
      rcases ht : t with - | ⟨c, t'⟩
      · exact hne ht
      · rw [ht] at hsp
        obtain ⟨w', hw, -⟩ := hsp
        rw [h4] at hw
        exact List.noConfusion hw
  | cons d rest ih =>
    intro pw
    constructor
    · intro h
      simp only [searchSpaced, Bool.or_eq_true, Bool.and_eq_true, Bool.not_eq_true'] at h
      rcases h with ⟨hpw, hm⟩ | h
      · rcases hmt : matchSpacedAt t (d :: rest) with - | r
        · rw [hmt] at hm
          exact absurd hm (by simp)
        · rw [hmt] at hm
          obtain ⟨w, hsp, hs⟩ := matchSpacedAt_sound t (d :: rest) r hmt
          refine ⟨[], w, r, by rw [hs]; rfl, hsp, by simp [prevOk, hpw], ?_⟩
          rcases r with - | ⟨e, r'⟩
          · exact Or.inl rfl
          · exact Or.inr ⟨e, rfl, by simpa [boundaryAfter] using hm⟩
      · obtain ⟨pre', w, post, heq, hsp, hprev, hbnd⟩ := (ih (isWordChar d)).mp h
        exact ⟨d :: pre', w, post, by rw [heq]; simp, hsp,
          (prevOk_cons pw d pre').mpr hprev, hbnd⟩
    · rintro ⟨pre, w, post, heq, hsp, hprev, hbnd⟩
      simp only [searchSpaced, Bool.or_eq_true, Bool.and_eq_true, Bool.not_eq_true']
      rcases pre with - | ⟨d', pre'⟩
      · left
        have hpw : pw = false := hprev
        simp only [List.nil_append] at heq
        have hcomplete : matchSpacedAt t (w ++ post) = some post :=
          matchSpacedAt_complete t w post hsp fun c hc => (hterm c hc).2
        rw [heq, hcomplete]
        refine ⟨hpw, ?_⟩
        rcases hbnd with rfl | ⟨c, hc, hcw⟩
        · rfl
        · rcases post with - | ⟨e, post'⟩
          · rfl
          · have he : e = c := by simpa using hc
            show boundaryAfter (e :: post') = true
            rw [he]
            simp [boundaryAfter, hcw]
      · right
        refine (ih (isWordChar d)).mpr ?_
        have hd' : d' = d := by
          have := congrArg List.head? heq
          simpa using this.symm
        subst hd'
        have hrest : rest = pre' ++ w ++ post := by
          have := congrArg List.tail heq
          simpa using this
        exact ⟨pre', w, post, hrest, hsp, (prevOk_cons pw d' pre').mp hprev, hbnd⟩

theorem searchWhole_implies (t : Str) :
    ∀ (s : Str) (pw : Bool), searchWhole t pw s = true →
      ∃ pre w post, s = pre ++ w ++ post ∧ SpellsWord t w ∧ prevOk pw pre
        ∧ (post = [] ∨ ∃ c, post.head? = some c ∧ isWordChar c = false) := by
  intro s
  induction s with
  | nil =>
    intro pw h
    exact absurd h (by simp [searchWhole])
  | cons d rest ih =>
    intro pw h
    simp only [searchWhole, Bool.or_eq_true, Bool.and_eq_true, Bool.not_eq_true'] at h
    rcases h with ⟨⟨hpw, hpre⟩, hbd⟩ | h
    · obtain ⟨post, hpost⟩ := List.isPrefixOf_iff_prefix.mp hpre
      have hdrop : List.drop t.length (d :: rest) = post := by
        rw [← hpost, List.drop_left]
      rw [hdrop] at hbd
      refine ⟨[], t, post, by rw [← hpost]; rfl, SpellsWord_refl t,
        by simp [prevOk, hpw], ?_⟩
      rcases post with - | ⟨e, post'⟩
      · exact Or.inl rfl
      · exact Or.inr ⟨e, rfl, by simpa [boundaryAfter] using hbd⟩
    · obtain ⟨pre', w, post, heq, hsp, hprev, hbnd⟩ := ih (isWordChar d) h
      exact ⟨d :: pre', w, post, by rw [heq]; simp, hsp,
        (prevOk_cons pw d pre').mpr hprev, hbnd⟩

/-- C7 as frozen is refuted on its own examples: a `fvck`-style value (`v`
is not in the leet substitution map) is accepted outright, not rejected with
the blocked-language message. -/
theorem fvck_not_blocked :
    moderationBlockReason (cs "fvck") = none
    ∧ getPromptIssue (cs "fvck") (some (cs "noun")) = none := by decide

/-- C7 amended: the blocked-term filter fires (returning exactly the
blocked-language message) on precisely the non-degenerate values whose
normalisation — lower-casing, the leet substitution map, punctuation
stripping and run collapsing — contains some blocked term as a whole word,
allowing whitespace between its letters (as in `f u c k`).  In particular a
value containing a blocked term only as a proper substring of a longer word
is accepted.  (The spec's `fûck` / `fvck` examples are dropped: those
substitutions are not in the map, and the code accepts them — see the
counterexample.) -/
theorem moderation_blocks_iff_whole_word (value : Str) :
    moderationBlockReason value = some BLOCKED_MESSAGE ↔
      (¬(value = [] ∨ jsTrim value = [])
        ∧ ∃ t ∈ BLOCKED_TERMS, SpacedOccur t (normalizePrompt value)) := by
  have hterms : ∀ t ∈ BLOCKED_TERMS,
      t ≠ [] ∧ ∀ c ∈ t, isWordChar c = true ∧ isJsSpace c = false := by decide
  unfold moderationBlockReason
  by_cases hguard : value = [] ∨ jsTrim value = []
  · rw [if_pos hguard]
    constructor
    · intro h
      exact absurd h (by simp)
    · rintro ⟨hn, -⟩
      exact absurd hguard hn
  · rw [if_neg hguard]
    by_cases hany : BLOCKED_TERMS.any (fun t =>
        wholeHit t (normalizePrompt value) || spacedHit t (normalizePrompt value)) = true
    · rw [if_pos hany]
      constructor
      · rintro -
        refine ⟨hguard, ?_⟩
        rw [List.any_eq_true] at hany
        obtain ⟨t, hmem, hhit⟩ := hany
        have hterm := hterms t hmem
        rcases (Bool.or_eq_true _ _).mp hhit with hw | hs
        · obtain ⟨pre, w, post, heq, hsp, hprev, hbnd⟩ :=
            searchWhole_implies t (normalizePrompt value) false hw
          exact ⟨t, hmem, pre, w, post, heq, hsp, (prevOk_false_iff pre).mp hprev, hbnd⟩
        · obtain ⟨pre, w, post, heq, hsp, hprev, hbnd⟩ :=
            (searchSpaced_iff t hterm.1 hterm.2 (normalizePrompt value) false).mp hs
          exact ⟨t, hmem, pre, w, post, heq, hsp, (prevOk_false_iff pre).mp hprev, hbnd⟩
      · rintro -
        rfl
    · rw [if_neg hany]
      constructor
      · intro h
        exact absurd h (by simp)
      · rintro ⟨-, t, hmem, hocc⟩
        exfalso
        apply hany
        rw [List.any_eq_true]
        refine ⟨t, hmem, ?_⟩
        refine (Bool.or_eq_true _ _).mpr (Or.inr ?_)
        obtain ⟨pre, w, post, heq, hsp, hpre, hbnd⟩ := hocc
        have hterm := hterms t hmem
        exact (searchSpaced_iff t hterm.1 hterm.2 (normalizePrompt value) false).mpr
          ⟨pre, w, post, heq, hsp, (prevOk_false_iff pre).mpr hpre, hbnd⟩

/-! ## Room state machine (C9)

Modelled from the spec: the room orchestration server is not part of these
frontend sources (the frontend only consumes `room.snapshot` events carrying
`state_version`), so the state machine is modelled from the design document —
§4.1 "Every transition is guarded by the room's exclusive lock.  Every
transition increments `state_version` and emits a `room.snapshot` event.
Rejected commands surface a typed error without mutating state", with the
per-state command table of §4.1. -/

inductive RoomState
  | LobbyOpen
  | Prompting
  | AwaitingReveal
  | Revealed
  | Expired
deriving DecidableEq

/-- Modelled from the spec: the room attributes of §3 that the state machine
reads or writes (presence, prompts and narration handles are collapsed to
the fields the transitions consult). -/
structure Room where
  room_state : RoomState
  state_version : Nat
  locked : Bool
  template_id : Option String
  round_index : Nat
  playerCount : Nat
  revealed_story : Option String
deriving DecidableEq

/-- The `state_version` / `room_state` core of a `room.snapshot` event. -/
structure Snapshot where
  state_version : Nat
  room_state : RoomState
deriving DecidableEq

/-- Modelled from the spec: the host/player commands of §4.1's table.
`submitPrompt`'s flag records whether this submission completes the round
(the auto transition to `AwaitingReveal`). -/
inductive Command
  | setTemplate (id : String)
  | lock
  | unlock
  | join
  | leave
  | start
  | submitPrompt (last : Bool)
  | reveal (story : String)
  | replay
  | expire
deriving DecidableEq

/-- An accepted mutation: bump `state_version` and publish the snapshot. -/
def bumped (room r : Room) : Room × Snapshot :=
  ({ r with state_version := room.state_version + 1 },
   { state_version := room.state_version + 1, room_state := r.room_state })

/-- Modelled from the spec: one command processed under the room's exclusive
lock.  An accepted command mutates the room, increments `state_version` and
returns the published snapshot; a rejected command returns `none` and leaves
the room unchanged. -/
def applyCommand (room : Room) (cmd : Command) : Option (Room × Snapshot) :=
  match cmd with
  | .setTemplate id =>
    if room.room_state = .LobbyOpen then some (bumped room { room with template_id := some id })
    else none
  | .lock =>
    if room.room_state = .LobbyOpen then some (bumped room { room with locked := true })
    else none
  | .unlock =>
    if room.room_state = .LobbyOpen then some (bumped room { room with locked := false })
    else none
  | .join =>
    if room.room_state = .LobbyOpen ∧ room.locked = false then
      some (bumped room { room with playerCount := room.playerCount + 1 })
    else none
  | .leave =>
    if room.room_state ≠ .Expired then
      some (bumped room { room with playerCount := room.playerCount - 1 })
    else none
  | .start =>
    if room.room_state = .LobbyOpen ∧ room.template_id ≠ none ∧ 2 ≤ room.playerCount then
      some (bumped room { room with room_state := .Prompting })
    else none
  | .submitPrompt last =>
    if room.room_state = .Prompting then
      if last then some (bumped room { room with room_state := .AwaitingReveal })
      else some (bumped room room)
    else none
  | .reveal story =>
    if room.room_state = .AwaitingReveal then
      some (bumped room { room with room_state := .Revealed, revealed_story := some story })
    else none
  | .replay =>
    if room.room_state = .Revealed then
      some (bumped room
        { room with
          room_state := .Prompting
          round_index := room.round_index + 1
          revealed_story := none })
    else none
  | .expire =>
    if room.room_state ≠ .Expired then
      some (bumped room { room with room_state := .Expired })
    else none

/-- A serialized command trace (the room lock totally orders commands):
the final room and the `room.snapshot` events published, in order. -/
def runCommands (room : Room) : List Command → Room × List Snapshot
  | [] => (room, [])
  | cmd :: cmds =>
    match applyCommand room cmd with
    | none => runCommands room cmds
    | some (room', snap) =>
      let rest := runCommands room' cmds
      (rest.1, snap :: rest.2)

theorem applyCommand_bumps (room : Room) (cmd : Command) (room' : Room) (snap : Snapshot)
    (h : applyCommand room cmd = some (room', snap)) :
    room'.state_version = room.state_version + 1
    ∧ snap.state_version = room.state_version + 1 := by
  cases cmd <;> simp only [applyCommand] at h <;> split_ifs at h <;>
    first
      | exact Option.noConfusion h
      | (have hp := Option.some.inj h
         injection hp with h1 h2
         subst h1
         subst h2
         exact ⟨rfl, rfl⟩)

theorem runCommands_chain (cmds : List Command) :
    ∀ room : Room,
      List.Chain (· < ·) room.state_version
        ((runCommands room cmds).2.map Snapshot.state_version) := by
  induction cmds with
  | nil => intro room; exact List.Chain.nil
  | cons cmd cmds ih =>
    intro room
    show List.Chain (· < ·) room.state_version
      ((match applyCommand room cmd with
        | none => runCommands room cmds
        | some (room', snap) =>
          let rest := runCommands room' cmds
          (rest.1, snap :: rest.2)).2.map Snapshot.state_version)
    rcases h : applyCommand room cmd with - | ⟨room', snap⟩
    · exact ih room
    · have hb := applyCommand_bumps room cmd room' snap h
      simp only [List.map_cons]
      refine List.Chain.cons (by omega) ?_
      have := ih room'
      rw [hb.1] at this
      rw [hb.2]
      exact this

/-- C9 (modelled from the spec, §4.1 and §8): every accepted state-affecting
command strictly increases the room's `state_version`, the published
snapshot carries the new version, and along any serialized command trace
the `room.snapshot` events carry strictly increasing `state_version`s
(each above the room's starting version); rejected commands mutate
nothing. -/
theorem state_version_strictly_increasing
    (room : Room) (cmd : Command) (room' : Room) (snap : Snapshot)
    (h : applyCommand room cmd = some (room', snap)) :
    room.state_version < room'.state_version
    ∧ snap.state_version = room'.state_version
    ∧ ∀ (r : Room) (cmds : List Command),
        List.Chain (· < ·) r.state_version
          ((runCommands r cmds).2.map Snapshot.state_version) := by
  have hb := applyCommand_bumps room cmd room' snap h
  exact ⟨by omega, by omega, fun r cmds => runCommands_chain cmds r⟩

theorem state_version_strictly_increasing_witness :
    applyCommand ⟨RoomState.LobbyOpen, 0, false, none, 0, 1, none⟩ Command.join
      = some (⟨RoomState.LobbyOpen, 1, false, none, 0, 2, none⟩, ⟨1, RoomState.LobbyOpen⟩)
    ∧ (0 : Nat) < 1 := by
  refine ⟨by decide, ?_⟩
  exact (state_version_strictly_increasing ⟨RoomState.LobbyOpen, 0, false, none, 0, 1, none⟩
    Command.join ⟨RoomState.LobbyOpen, 1, false, none, 0, 2, none⟩ ⟨1, RoomState.LobbyOpen⟩
    (by decide)).1

end StoryFill
